import Mathlib

/-!
Shallow embedding of the SVF dominator analysis
(`DominatorAnalysis.cpp` / `DominantorAnalysis.h`) and of the symbolic-state
component (`SymState.cpp`), together with theorems settling the frozen
claims about the natural-language specification.

Basic blocks are modelled as natural numbers; a control-flow graph records
the function's block list, its entry block, and the stored
predecessor/successor lists of every block.  The null-pointer sentinel used
by `computePostDominators` for the virtual exit block is modelled as `none`
in `Option Nat`.
-/

/-! ## TypeState and the TypeStateParser table (`SymState.cpp`) -/

/-- The closed typestate enumeration (`TypeState` in the source): the two
sentinels plus the built-in lifecycle labels appearing in the table. -/
inductive TypeState where
  | Uinit : TypeState
  | Error : TypeState
  | Allocated : TypeState
  | Freed : TypeState
  | Opened : TypeState
deriving DecidableEq, Repr

/-- The label-to-state table `TypeStateParser::_typeMap`, entry for entry
from the source initializer. -/
def typeMap : List (String × TypeState) :=
  [("$uninit", TypeState.Uinit),
   ("$error", TypeState.Error),
   ("Allocated", TypeState.Allocated),
   ("Freed", TypeState.Freed),
   ("Opened", TypeState.Opened)]

/-- The state-to-label table `TypeStateParser::_revTypeMap`, entry for entry
from the source initializer. -/
def revTypeMap : List (TypeState × String) :=
  [(TypeState.Uinit, "$uninit"),
   (TypeState.Error, "$error"),
   (TypeState.Allocated, "Allocated"),
   (TypeState.Freed, "Freed"),
   (TypeState.Opened, "Opened")]

/-- The error value raised on an unknown label. -/
structure UnknownLabelError where
  label : String
deriving DecidableEq, Repr

/-- Modelled from the spec: `TypeStateParser::labelToState` (declared in the
header `SymState.h`, which is not part of the visible sources) looks a label
up in the table `_typeMap` and "fails with an UnknownLabelError when the
label is not present in the table (no fallback, no fuzzy matching)". -/
def labelToState (l : String) : Except UnknownLabelError TypeState :=
  match typeMap.lookup l with
  | some t => Except.ok t
  | none => Except.error ⟨l⟩

/-- Modelled from the spec: `TypeStateParser::stateToLabel` (declared in the
header `SymState.h`, which is not part of the visible sources) translates a
typestate to its canonical label through `_revTypeMap`; it is total over the
closed enumeration. -/
def stateToLabel (t : TypeState) : String :=
  (revTypeMap.lookup t).getD ""

/-! ## SymState (`SymState.cpp`) -/

/-- Minimal model of the opaque boolean-formula type `Z3Expr`: a boolean
constant (`bool_val`) and conjunction are the only operations this core
needs. -/
inductive Z3Expr where
  | boolVal : Bool → Z3Expr
  | conj : Z3Expr → Z3Expr → Z3Expr
deriving DecidableEq, Repr

/-- A symbolic state: an (opaque) abstract execution state, a typestate tag,
and a branch condition.  The abstract-execution-state type is a parameter
since `ConsExeState` is opaque to this core. -/
structure SymState (ES : Type) where
  _exeState : ES
  _typeState : TypeState
  _branchCondition : Z3Expr

/-- The constructor `SymState::SymState(ConsExeState es, TypeState ts)` from
the source: it moves both arguments in and initializes `_branchCondition`
to `Z3Expr::getContext().bool_val(true)`. -/
def SymState.make {ES : Type} (es : ES) (ts : TypeState) : SymState ES :=
  { _exeState := es, _typeState := ts,
    _branchCondition := Z3Expr.boolVal true }

/-! ## Control-flow graphs -/

/-- A function's control-flow graph as seen by `DominatorAnalysis`: the
block list (`getBasicBlockList`), the entry block (`getEntryBlock`) and the
stored successor/predecessor lists of each block. -/
structure CFG where
  blocks : List Nat
  entry : Nat
  succ : Nat → List Nat
  pred : Nat → List Nat

/-- Well-formedness of a CFG, as guaranteed by the upstream IR builder:
the entry block belongs to the block list, the block list has no
duplicates, successor and predecessor lists stay inside the block list, and
the predecessor lists are exactly the reverse adjacency of the successor
lists. -/
structure CFG.WF (g : CFG) : Prop where
  entry_mem : g.entry ∈ g.blocks
  nodup : g.blocks.Nodup
  succ_mem : ∀ a ∈ g.blocks, ∀ b ∈ g.succ a, b ∈ g.blocks
  pred_mem : ∀ a ∈ g.blocks, ∀ b ∈ g.pred a, b ∈ g.blocks
  dual : ∀ a ∈ g.blocks, ∀ b ∈ g.blocks, (a ∈ g.pred b ↔ b ∈ g.succ a)

/-! ## Depth-first search (the `DFSUtil` lambdas)

Both `computeDominators` and `computePostDominators` run the same recursive
depth-first traversal, differing only in the adjacency function used
(successors resp. predecessors) and in the list of start nodes.  `dfs`
processes a worklist of nodes: an unvisited node is marked visited, its
adjacent nodes are explored recursively, and it is then appended to the
postorder list — exactly the behaviour of the `DFSUtil` lambda.  Recursion
depth is bounded by a fuel parameter; the callers pass enough fuel for the
fuel-exhaustion branch to be unreachable (the C++ recursion depth is
bounded by the number of blocks). -/

/-- One level of the depth-first traversal: process a worklist of nodes,
skipping already-visited ones; an unvisited node `s` is marked visited,
explored via `child s` (the recursive descent, supplied by `dfs` below),
and then appended to the postorder list. -/
def dfsStep {α : Type} [DecidableEq α]
    (child : α → List α → List α → List α × List α) :
    List α → List α → List α → List α × List α
  | [], vis, post => (vis, post)
  | s :: rest, vis, post =>
    if s ∈ vis then dfsStep child rest vis post
    else
      let st := child s (s :: vis) post
      dfsStep child rest st.1 (st.2 ++ [s])

/-- Depth-first search: `dfs adj fuel todo vis post` returns the final
`(visited, postorder)` pair.  Exhausted fuel (which the chosen fuel keeps
unreachable) leaves the state unchanged. -/
def dfs {α : Type} [DecidableEq α] (adj : α → List α) :
    Nat → List α → List α → List α → List α × List α
  | 0, _, vis, post => (vis, post)
  | fuel + 1, todo, vis, post =>
    dfsStep (fun s v p => dfs adj fuel (adj s) v p) todo vis post

/-! ## The iterative Cooper–Harvey–Kennedy core

`computeDominators` and `computePostDominators` share the same fixed-point
loop, differing only in how each reverse-postorder index obtains its list
of candidate indices (reachable predecessors for dominance; successors,
with the virtual exit standing in for an empty successor list, for
post-dominance).  The core below is therefore parameterized by a
candidate-list function `cands : Nat → List Int`; each instantiation
mirrors its source loop body. -/

/-- Read `IDoms[b]` for a (possibly negative) index, as the C++ does with
an `int` index into the vector.  A negative or out-of-range index — which
never occurs along the executions the theorems are about — yields `-1`. -/
def idomGet (d : Array Int) (b : Int) : Int :=
  if b < 0 then -1 else d.getD b.toNat (-1)

/-- One step-by-step run of the `insert` (intersection) walk:

    while (B1 != B2) { while (B1 > B2) B1 = IDoms[B1];
                       while (B2 > B1) B2 = IDoms[B2]; }

Each iteration replaces the larger index by its current immediate
dominator; the fuel bounds the number of single replacements (the callers
pass `2 * n + 2`, enough whenever the stored-value invariants of the
algorithm hold). -/
def intersectIdx (d : Array Int) : Nat → Int → Int → Int
  | 0, b1, _ => b1
  | fuel + 1, b1, b2 =>
    if b1 = b2 then b1
    else if b1 > b2 then intersectIdx d fuel (idomGet d b1) b2
    else intersectIdx d fuel b1 (idomGet d b2)

/-- The body of the `for (const auto& predBB : ...)` loop: fold the
candidate indices into `new_idom`, skipping candidates whose slot is still
`-1`. -/
def foldCands (d : Array Int) (fuel : Nat) (cs : List Int) (acc : Int) : Int :=
  match cs with
  | [] => acc
  | c :: rest =>
    if idomGet d c = -1 then foldCands d fuel rest acc
    else if acc = -1 then foldCands d fuel rest c
    else foldCands d fuel rest (intersectIdx d fuel acc c)

/-- One full pass of the fixed-point loop (`for (int i = 0; i < n; i++)`),
updating the array in place and reporting whether any slot changed; the
first argument counts the remaining indices (the caller passes `n`, so `i`
ranges over `0, …, n-1` exactly as in the source). -/
def chkPass (cands : Nat → List Int) (root n : Nat) :
    Nat → Nat → Array Int → Bool → Array Int × Bool
  | 0, _, d, ch => (d, ch)
  | k + 1, i, d, ch =>
    if i = root then chkPass cands root n k (i + 1) d ch
    else
      let newIdom := foldCands d (2 * n + 2) (cands i) (-1)
      if idomGet d i ≠ newIdom then
        chkPass cands root n k (i + 1) (d.set! i newIdom) true
      else
        chkPass cands root n k (i + 1) d ch

/-- The `while (change)` loop, with fuel bounding the number of passes. -/
def chkLoop (cands : Nat → List Int) (root n : Nat) :
    Nat → Array Int → Array Int
  | 0, d => d
  | fuel + 1, d =>
    let st := chkPass cands root n n 0 d false
    if st.2 then chkLoop cands root n fuel st.1 else st.1

/-! ## computeDominators (`DominatorAnalysis.cpp`, lines 112-217) -/

/-- The forward depth-first traversal started at the entry block
(`getReversePostOrder` in `computeDominators`): returns the final
`(reachable, postorder)` state.  The fuel `|blocks| + 1` covers the C++
recursion depth, which is bounded by the number of blocks. -/
def domDFS (g : CFG) : List Nat × List Nat :=
  dfs g.succ (g.blocks.length + 1) [g.entry] [] []

/-- The `reachable` set of `computeDominators`. -/
def domReach (g : CFG) : List Nat := (domDFS g).1

/-- The vector `revPostOrder` of `computeDominators`. -/
def domRPO (g : CFG) : List Nat := (domDFS g).2.reverse

/-- The loop bound `n = revPostOrder.size()`. -/
def domN (g : CFG) : Nat := (domRPO g).length

/-- The root index `root = bbToIdx[entryBB]`.  The index map `bbToIdx`
assigns each block its position in `revPostOrder` (which has no
duplicates), i.e. `List.indexOf`. -/
def domRoot (g : CFG) : Nat := (domRPO g).indexOf g.entry

/-- The candidate indices examined for reverse-postorder index `i` by the
inner loop of `computeDominators`: the predecessors of `revPostOrder[i]`,
restricted to reachable ones, as indices (`bbToIdx[predBB]`).  The further
`IDoms[pred] == -1` guard lives in `foldCands`, since it reads the evolving
array. -/
def candsD (g : CFG) (i : Nat) : List Int :=
  (((g.pred ((domRPO g).getD i 0)).filter (fun p => p ∈ domReach g)).map
    (fun p => ((domRPO g).indexOf p : Int)))

/-- The vector `IDoms` after initialization: every slot `-1`, except
`IDoms[root] = root`. -/
def domInit (g : CFG) : Array Int :=
  (Array.mkArray (domN g) (-1 : Int)).set! (domRoot g) (domRoot g)

/-- The immediate-dominator array computed by the `while (change)` loop of
`computeDominators`. -/
def domIDoms (g : CFG) : Array Int :=
  chkLoop (candsD g) (domRoot g) (domN g) (domN g * domN g + 2) (domInit g)

/-- One iteration of the map-population loop of `computeDominators`:
`if (IDoms[i] != -1 && i != IDoms[i])
   dtBBsMap[revPostOrder[IDoms[i]]].insert(revPostOrder[i])`.
The map is represented by its set of (parent, child) edges: creating the
key on demand and inserting into its child set is exactly inserting the
edge. -/
def addDomEdge (rpo : List Nat) (d : Array Int) (m : Finset (Nat × Nat))
    (i : Nat) : Finset (Nat × Nat) :=
  let v := d.getD i (-1)
  if v ≠ -1 ∧ (i : Int) ≠ v then
    insert (rpo.getD v.toNat 0, rpo.getD i 0) m
  else m

/-- The map-population loop of `computeDominators`, inserting into the
function's (possibly non-empty) dominator-tree map `m`. -/
def populateDomMap (g : CFG) (m : Finset (Nat × Nat)) : Finset (Nat × Nat) :=
  (List.range (domN g)).foldl (addDomEdge (domRPO g) (domIDoms g)) m

/-! ## computePostDominators (`DominatorAnalysis.cpp`, lines 416-539) -/

/-- The exit blocks: blocks of the function whose successor list is empty,
in block-list order (`exitBBs`). -/
def exitBlocks (g : CFG) : List Nat :=
  g.blocks.filter (fun b => g.succ b = [])

/-- The backward depth-first traversal started at every exit block
(`getReversePostOrder` in `computePostDominators`), following predecessor
edges. -/
def pdDFS (g : CFG) : List Nat × List Nat :=
  dfs g.pred (g.blocks.length + 1) (exitBlocks g) [] []

/-- The `reachable` set of `computePostDominators`, after
`reachable.insert(nullptr)`; the null sentinel is `none`. -/
def pdReach (g : CFG) : List (Option Nat) :=
  none :: (pdDFS g).1.map some

/-- The vector `revPostOrder` of `computePostDominators`, after the virtual
exit block (`nullptr`, modelled as `none`) is inserted at the front. -/
def pdRPO (g : CFG) : List (Option Nat) :=
  none :: ((pdDFS g).2.reverse.map some)

/-- The loop bound `n = revPostOrder.size()` of `computePostDominators`. -/
def pdN (g : CFG) : Nat := (pdRPO g).length

/-- The successor list used for reverse-postorder index `i`: the successors
of `revPostOrder[i]`, with `nullptr` pushed when the list is empty (the
virtual exit is the successor of every exit block).  Index `0` is the
virtual exit itself and is skipped by the loop (`i == root`). -/
def pdSuccs (g : CFG) (i : Nat) : List (Option Nat) :=
  match (pdRPO g).getD i none with
  | none => [none]
  | some b => if g.succ b = [] then [none] else (g.succ b).map some

/-- The candidate indices examined for reverse-postorder index `i` by the
inner loop of `computePostDominators`: its successors (with the virtual
exit for exit blocks), restricted to reachable ones, as indices. -/
def candsP (g : CFG) (i : Nat) : List Int :=
  ((pdSuccs g i).filter (fun s => s ∈ pdReach g)).map
    (fun s => ((pdRPO g).indexOf s : Int))

/-- The vector `IPdoms` after initialization: every slot `-1`, except
`IPdoms[root] = root` with `root = 0`, the virtual exit. -/
def pdInit (g : CFG) : Array Int :=
  (Array.mkArray (pdN g) (-1 : Int)).set! 0 0

/-- The immediate-post-dominator array computed by the `while (change)`
loop of `computePostDominators`. -/
def pdIPdoms (g : CFG) : Array Int :=
  chkLoop (candsP g) 0 (pdN g) (pdN g * pdN g + 2) (pdInit g)

/-- One iteration of the map-population loop of `computePostDominators`:
`if (IPdoms[i] != 0 && IPdoms[i] != -1 && i != IPdoms[i])
   pdtBBsMap[revPostOrder[IPdoms[i]]].insert(revPostOrder[i])`. -/
def addPdEdge (rpo : List (Option Nat)) (d : Array Int)
    (m : Finset (Option Nat × Option Nat)) (i : Nat) :
    Finset (Option Nat × Option Nat) :=
  let v := d.getD i (-1)
  if v ≠ 0 ∧ v ≠ -1 ∧ (i : Int) ≠ v then
    insert (rpo.getD v.toNat none, rpo.getD i none) m
  else m

/-- The map-population loop of `computePostDominators`; note it starts at
`i = 1`, skipping the virtual exit. -/
def populatePdMap (g : CFG) (m : Finset (Option Nat × Option Nat)) :
    Finset (Option Nat × Option Nat) :=
  ((List.range (pdN g)).drop 1).foldl (addPdEdge (pdRPO g) (pdIPdoms g)) m

/-! ## analyze (`DominatorAnalysis.cpp`, lines 58-64) -/

/-- The state `analyze` acts on: the function's dominator-tree map and
post-dominator-tree map (`svfLoopAndDom->getDomTreeMap()` and
`getPostDomTreeMap()`), each as its set of (parent, child) edges. -/
structure DomState where
  domMap : Finset (Nat × Nat)
  pdMap : Finset (Option Nat × Option Nat)
deriving DecidableEq

/-- `DominatorAnalysis::analyze()`: runs `computeDominators` then
`computePostDominators`, each inserting its edges into the corresponding
stored map. -/
def analyze (g : CFG) (st : DomState) : DomState :=
  { domMap := populateDomMap g st.domMap,
    pdMap := populatePdMap g st.pdMap }

/-- The children set of a parent key in a dominator map (the `BBSet` the
key maps to). -/
def childrenOf {α : Type} [DecidableEq α] (m : Finset (α × α)) (p : α) :
    Finset α :=
  (m.filter (fun e => e.1 = p)).image Prod.snd

/-- Membership of a block anywhere in a map: as a key or inside a child
set. -/
def inMap {α : Type} [DecidableEq α] (m : Finset (α × α)) (b : α) : Prop :=
  ∃ e ∈ m, e.1 = b ∨ e.2 = b

/-- The parent set of a child in a dominator map: the keys whose child set
contains it (a tree map assigns each non-root block exactly one). -/
def parentsOf {α : Type} [DecidableEq α] (m : Finset (α × α)) (c : α) :
    Finset α :=
  (m.filter (fun e => e.2 = c)).image Prod.fst

/-! ## Concrete scenario CFGs from the spec -/

/-- The diamond CFG of spec scenario 1:
`Entry→A, Entry→B, A→C, B→C, C→Exit`, with
`Entry = 0, A = 1, B = 2, C = 3, Exit = 4`. -/
def diamond : CFG where
  blocks := [0, 1, 2, 3, 4]
  entry := 0
  succ := fun b =>
    match b with | 0 => [1, 2] | 1 => [3] | 2 => [3] | 3 => [4] | _ => []
  pred := fun b =>
    match b with | 1 => [0] | 2 => [0] | 3 => [1, 2] | 4 => [3] | _ => []

/-- A function with two disjoint exit blocks (spec scenario 3):
`Entry = 0` branching to the exits `E1 = 1` and `E2 = 2`, both with empty
successor lists. -/
def twoExit : CFG where
  blocks := [0, 1, 2]
  entry := 0
  succ := fun b => match b with | 0 => [1, 2] | _ => []
  pred := fun b => match b with | 1 => [0] | 2 => [0] | _ => []

/-! ## Idempotence machinery for claim C7 -/

/-- A fold step that only ever adds elements distributes over the initial
set. -/
theorem foldl_union_split {β : Type} [DecidableEq β]
    (f : Finset β → Nat → Finset β) (hf : ∀ m i, f m i = m ∪ f ∅ i) :
    ∀ (l : List Nat) (m : Finset β), l.foldl f m = m ∪ l.foldl f ∅ := by
  intro l
  induction l with
  | nil => intro m; simp
  | cons i l ih =>
    intro m
    simp only [List.foldl_cons]
    rw [ih (f m i), ih (f ∅ i), hf m i, Finset.union_assoc]

/-- The dominator-map population step only adds edges. -/
theorem addDomEdge_split (rpo : List Nat) (d : Array Int) :
    ∀ (m : Finset (Nat × Nat)) (i : Nat),
      addDomEdge rpo d m i = m ∪ addDomEdge rpo d ∅ i := by
  intro m i
  simp only [addDomEdge]
  split_ifs
  · ext a; simp [or_comm]
  · simp

/-- The post-dominator-map population step only adds edges. -/
theorem addPdEdge_split (rpo : List (Option Nat)) (d : Array Int) :
    ∀ (m : Finset (Option Nat × Option Nat)) (i : Nat),
      addPdEdge rpo d m i = m ∪ addPdEdge rpo d ∅ i := by
  intro m i
  simp only [addPdEdge]
  split_ifs
  · ext a; simp [or_comm]
  · simp

/-- Populating the dominator map adds a fixed edge set, determined by the
function alone. -/
theorem populateDomMap_union (g : CFG) (m : Finset (Nat × Nat)) :
    populateDomMap g m = m ∪ populateDomMap g ∅ :=
  foldl_union_split _ (addDomEdge_split _ _) _ m

/-- Populating the post-dominator map adds a fixed edge set, determined by
the function alone. -/
theorem populatePdMap_union (g : CFG) (m : Finset (Option Nat × Option Nat)) :
    populatePdMap g m = m ∪ populatePdMap g ∅ :=
  foldl_union_split _ (addPdEdge_split _ _) _ m

/-! ## Claims C5, C7, C8, C9 and the counterexample for C2 -/

/-- C7: `analyze` is idempotent — on the same unchanged function, the
dominator map and post-dominator map after a second invocation equal their
state after the first invocation, whatever the maps held before. -/
theorem claim_C7_analyze_idempotent (g : CFG) (st : DomState) :
    analyze g (analyze g st) = analyze g st := by
  unfold analyze
  simp only [DomState.mk.injEq]
  constructor
  · rw [populateDomMap_union g st.domMap,
      populateDomMap_union g (st.domMap ∪ populateDomMap g ∅),
      Finset.union_assoc, Finset.union_self]
  · rw [populatePdMap_union g st.pdMap,
      populatePdMap_union g (st.pdMap ∪ populatePdMap g ∅),
      Finset.union_assoc, Finset.union_self]

/-- C5: on the diamond CFG, `analyze` yields a dominator map whose entry
for `Entry` is `{A, B, C}`, the immediate dominator of `C` is `Entry`
alone, and a post-dominator map whose entry for `C` is `{A, B, Entry}`. -/
theorem claim_C5_diamond :
    childrenOf (analyze diamond ⟨∅, ∅⟩).domMap 0 = {1, 2, 3} ∧
    parentsOf (analyze diamond ⟨∅, ∅⟩).domMap 3 = {0} ∧
    childrenOf (analyze diamond ⟨∅, ∅⟩).pdMap (some 3) =
      {some 0, some 1, some 2} :=
  ⟨by decide, by decide, by decide⟩

/-- C8: round-tripping every typestate through its label succeeds, and an
unregistered label fails with an UnknownLabelError carrying that label. -/
theorem claim_C8_label_bijection :
    (∀ t : TypeState, labelToState (stateToLabel t) = Except.ok t) ∧
    (∀ l : String, l ∉ typeMap.map Prod.fst →
      labelToState l = Except.error ⟨l⟩) := by
  constructor
  · intro t; cases t <;> rfl
  · intro l hl
    simp [typeMap] at hl
    simp [labelToState, typeMap, List.lookup, beq_eq_false_iff_ne.mpr hl.1,
      beq_eq_false_iff_ne.mpr hl.2.1, beq_eq_false_iff_ne.mpr hl.2.2.1,
      beq_eq_false_iff_ne.mpr hl.2.2.2.1, beq_eq_false_iff_ne.mpr hl.2.2.2.2]

/-- Witness for C8 at concrete inputs: `Freed` round-trips, and the
unregistered label "bogus" fails. -/
theorem claim_C8_label_bijection_witness :
    labelToState (stateToLabel TypeState.Freed) = Except.ok TypeState.Freed ∧
    labelToState "bogus" = Except.error ⟨"bogus"⟩ :=
  ⟨claim_C8_label_bijection.1 TypeState.Freed,
   claim_C8_label_bijection.2 "bogus" (by decide)⟩

/-- C9: a freshly constructed symbolic state's branch condition is the
logical constant true, whatever the two constructor arguments are. -/
theorem claim_C9_fresh_branch_condition :
    ∀ (ES : Type) (es : ES) (ts : TypeState),
      (SymState.make es ts)._branchCondition = Z3Expr.boolVal true :=
  fun _ _ _ => rfl

/-- Counterexample to C2 as stated: on `twoExit`, three blocks reach an
exit, yet the published post-dominator map is empty — it has neither
`|reachable| - 1 = 2` edges nor a parent edge for the reachable non-root
block `E1`, because edges whose parent is the virtual exit are skipped
when the map is populated. -/
theorem claim_C2_counterexample :
    (pdDFS twoExit).1.length = 3 ∧
    (populatePdMap twoExit ∅).card = 0 ∧
    ¬((populatePdMap twoExit ∅).card = (pdDFS twoExit).1.length - 1) ∧
    some 1 ∈ pdReach twoExit ∧
    parentsOf (populatePdMap twoExit ∅) (some 1) = ∅ :=
  ⟨by decide, by decide, by decide, by decide, by decide⟩

/-! ## Structural lemmas about the depth-first traversal -/

section DFSLemmas

variable {α : Type} [DecidableEq α]

/-- A step of the traversal only ever conses onto the visited list. -/
theorem dfsStep_vis_append (child : α → List α → List α → List α × List α)
    (hc : ∀ s v p, ∃ d, (child s v p).1 = d ++ v) :
    ∀ todo vis post, ∃ d, (dfsStep child todo vis post).1 = d ++ vis := by
  intro todo
  induction todo with
  | nil => intro vis post; exact ⟨[], rfl⟩
  | cons s rest ih =>
    intro vis post
    simp only [dfsStep]
    by_cases hs : s ∈ vis
    · simp only [if_pos hs]; exact ih vis post
    · simp only [if_neg hs]
      obtain ⟨d1, hd1⟩ := hc s (s :: vis) post
      obtain ⟨d2, hd2⟩ := ih (child s (s :: vis) post).1
        ((child s (s :: vis) post).2 ++ [s])
      refine ⟨d2 ++ d1 ++ [s], ?_⟩
      rw [hd2, hd1]
      simp

/-- The traversal only ever conses onto the visited list. -/
theorem dfs_vis_append (adj : α → List α) :
    ∀ (fuel : Nat) (todo vis post : List α),
      ∃ d, (dfs adj fuel todo vis post).1 = d ++ vis := by
  intro fuel
  induction fuel with
  | zero => intro todo vis post; exact ⟨[], rfl⟩
  | succ fuel ih =>
    intro todo vis post
    simp only [dfs]
    refine dfsStep_vis_append _ ?_ todo vis post
    intro s v p
    exact ih (adj s) v p

/-- A step of the traversal only ever appends to the postorder list. -/
theorem dfsStep_post_append (child : α → List α → List α → List α × List α)
    (hc : ∀ s v p, ∃ d, (child s v p).2 = p ++ d) :
    ∀ todo vis post, ∃ d, (dfsStep child todo vis post).2 = post ++ d := by
  intro todo
  induction todo with
  | nil => intro vis post; exact ⟨[], by simp [dfsStep]⟩
  | cons s rest ih =>
    intro vis post
    simp only [dfsStep]
    by_cases hs : s ∈ vis
    · simp only [if_pos hs]; exact ih vis post
    · simp only [if_neg hs]
      obtain ⟨d1, hd1⟩ := hc s (s :: vis) post
      obtain ⟨d2, hd2⟩ := ih (child s (s :: vis) post).1
        ((child s (s :: vis) post).2 ++ [s])
      refine ⟨d1 ++ [s] ++ d2, ?_⟩
      rw [hd2, hd1]
      simp

/-- The traversal only ever appends to the postorder list. -/
theorem dfs_post_append (adj : α → List α) :
    ∀ (fuel : Nat) (todo vis post : List α),
      ∃ d, (dfs adj fuel todo vis post).2 = post ++ d := by
  intro fuel
  induction fuel with
  | zero => intro todo vis post; exact ⟨[], by simp [dfs]⟩
  | succ fuel ih =>
    intro todo vis post
    simp only [dfs]
    refine dfsStep_post_append _ ?_ todo vis post
    intro s v p
    exact ih (adj s) v p

/-- Worklist elements end up visited. -/
theorem dfsStep_todo_visited (child : α → List α → List α → List α × List α)
    (hc1 : ∀ s v p, ∃ d, (child s v p).1 = d ++ v) :
    ∀ todo vis post, ∀ x ∈ todo, x ∈ (dfsStep child todo vis post).1 := by
  intro todo
  induction todo with
  | nil => intro vis post x hx; cases hx
  | cons s rest ih =>
    intro vis post x hx
    simp only [dfsStep]
    by_cases hs : s ∈ vis
    · simp only [if_pos hs]
      rcases List.mem_cons.mp hx with h | hx'
      · obtain ⟨d, hd⟩ := dfsStep_vis_append child hc1 rest vis post
        rw [hd]; subst h; exact List.mem_append_right _ hs
      · exact ih vis post x hx'
    · simp only [if_neg hs]
      rcases List.mem_cons.mp hx with h | hx'
      · obtain ⟨d1, hd1⟩ := hc1 s (s :: vis) post
        obtain ⟨d2, hd2⟩ := dfsStep_vis_append child hc1 rest
          (child s (s :: vis) post).1 ((child s (s :: vis) post).2 ++ [s])
        rw [hd2, hd1]
        subst h
        refine List.mem_append_right _ (List.mem_append_right _ ?_)
        exact List.mem_cons_self _ _
      · exact ih _ _ x hx'

/-- Worklist elements of `dfs` end up visited. -/
theorem dfs_todo_visited (adj : α → List α) (fuel : Nat)
    (todo vis post : List α) : ∀ x ∈ todo, x ∈ (dfs adj (fuel + 1) todo vis post).1 := by
  intro x hx
  simp only [dfs]
  exact dfsStep_todo_visited _ (fun s v p => dfs_vis_append adj fuel (adj s) v p)
    todo vis post x hx

end DFSLemmas

/-- One adjacency step: `b` is in the adjacency list of `a`. -/
def stepRel {α : Type} (adj : α → List α) (a b : α) : Prop := b ∈ adj a

/-- Reachability along adjacency steps. -/
def ReachRel {α : Type} (adj : α → List α) (a b : α) : Prop :=
  Relation.ReflTransGen (stepRel adj) a b

section DFSLemmas2

variable {α : Type} [DecidableEq α]

/-- Soundness of a traversal step: newly visited nodes are related to some
worklist node. -/
theorem dfsStep_sound (child : α → List α → List α → List α × List α)
    (R : α → α → Prop) (hrefl : ∀ s, R s s)
    (hc : ∀ s v p, ∀ x ∈ (child s v p).1, x ∈ v ∨ R s x) :
    ∀ todo vis post, ∀ x ∈ (dfsStep child todo vis post).1,
      x ∈ vis ∨ ∃ r ∈ todo, R r x := by
  intro todo
  induction todo with
  | nil => intro vis post x hx; exact Or.inl hx
  | cons s rest ih =>
    intro vis post x hx
    simp only [dfsStep] at hx
    by_cases hs : s ∈ vis
    · rw [if_pos hs] at hx
      rcases ih vis post x hx with h | ⟨r, hr, hrx⟩
      · exact Or.inl h
      · exact Or.inr ⟨r, List.mem_cons_of_mem _ hr, hrx⟩
    · rw [if_neg hs] at hx
      rcases ih _ _ x hx with h | ⟨r, hr, hrx⟩
      · rcases hc s (s :: vis) post x h with h2 | h2
        · rcases List.mem_cons.mp h2 with h3 | h3
          · exact Or.inr ⟨s, List.mem_cons_self _ _, h3 ▸ hrefl s⟩
          · exact Or.inl h3
        · exact Or.inr ⟨s, List.mem_cons_self _ _, h2⟩
      · exact Or.inr ⟨r, List.mem_cons_of_mem _ hr, hrx⟩

/-- Soundness of the traversal: every visited node was already visited or
is reachable from a worklist node. -/
theorem dfs_sound (adj : α → List α) :
    ∀ (fuel : Nat) (todo vis post : List α),
      ∀ x ∈ (dfs adj fuel todo vis post).1,
        x ∈ vis ∨ ∃ r ∈ todo, ReachRel adj r x := by
  intro fuel
  induction fuel with
  | zero => intro todo vis post x hx; exact Or.inl hx
  | succ fuel ih =>
    intro todo vis post
    simp only [dfs]
    refine dfsStep_sound _ (ReachRel adj) (fun s => Relation.ReflTransGen.refl) ?_ todo vis post
    intro s v p x hx
    rcases ih (adj s) v p x hx with h | ⟨r, hr, hrx⟩
    · exact Or.inl h
    · exact Or.inr (Relation.ReflTransGen.trans
        (Relation.ReflTransGen.single hr) hrx)

/-- New postorder entries were unvisited when the step began. -/
theorem dfsStep_post_new (child : α → List α → List α → List α × List α)
    (hcvis : ∀ s v p, ∃ d, (child s v p).1 = d ++ v)
    (hc : ∀ s v p, ∀ x ∈ (child s v p).2, x ∈ p ∨ x ∉ v) :
    ∀ todo vis post, ∀ x ∈ (dfsStep child todo vis post).2,
      x ∈ post ∨ x ∉ vis := by
  intro todo
  induction todo with
  | nil => intro vis post x hx; exact Or.inl hx
  | cons s rest ih =>
    intro vis post x hx
    simp only [dfsStep] at hx
    by_cases hs : s ∈ vis
    · rw [if_pos hs] at hx
      exact ih vis post x hx
    · rw [if_neg hs] at hx
      rcases ih _ _ x hx with h | h
      · rcases List.mem_append.mp h with h2 | h2
        · rcases hc s (s :: vis) post x h2 with h3 | h3
          · exact Or.inl h3
          · exact Or.inr (fun hv => h3 (List.mem_cons_of_mem _ hv))
        · rcases List.mem_singleton.mp h2 with rfl
          exact Or.inr hs
      · refine Or.inr (fun hv => h ?_)
        obtain ⟨d, hd⟩ := hcvis s (s :: vis) post
        rw [hd]
        exact List.mem_append_right _ (List.mem_cons_of_mem _ hv)

/-- New postorder entries of the traversal were unvisited at the start. -/
theorem dfs_post_new (adj : α → List α) :
    ∀ (fuel : Nat) (todo vis post : List α),
      ∀ x ∈ (dfs adj fuel todo vis post).2, x ∈ post ∨ x ∉ vis := by
  intro fuel
  induction fuel with
  | zero => intro todo vis post x hx; exact Or.inl hx
  | succ fuel ih =>
    intro todo vis post
    simp only [dfs]
    exact dfsStep_post_new _ (fun s v p => dfs_vis_append adj fuel (adj s) v p)
      (fun s v p => ih (adj s) v p) todo vis post

/-- The postorder list stays inside the visited list and stays duplicate
free. -/
theorem dfsStep_post_good (child : α → List α → List α → List α × List α)
    (hcvis : ∀ s v p, ∃ d, (child s v p).1 = d ++ v)
    (hcnew : ∀ s v p, ∀ x ∈ (child s v p).2, x ∈ p ∨ x ∉ v)
    (hc : ∀ s v p, p.Nodup → (∀ x ∈ p, x ∈ v) →
      (child s v p).2.Nodup ∧ ∀ x ∈ (child s v p).2, x ∈ (child s v p).1) :
    ∀ todo vis post, post.Nodup → (∀ x ∈ post, x ∈ vis) →
      (dfsStep child todo vis post).2.Nodup ∧
      ∀ x ∈ (dfsStep child todo vis post).2,
        x ∈ (dfsStep child todo vis post).1 := by
  intro todo
  induction todo with
  | nil => intro vis post h1 h2; exact ⟨h1, h2⟩
  | cons s rest ih =>
    intro vis post h1 h2
    simp only [dfsStep]
    by_cases hs : s ∈ vis
    · rw [if_pos hs]; exact ih vis post h1 h2
    · rw [if_neg hs]
      have h2' : ∀ x ∈ post, x ∈ s :: vis :=
        fun x hx => List.mem_cons_of_mem _ (h2 x hx)
      obtain ⟨hcn, hcv⟩ := hc s (s :: vis) post h1 h2'
      have hsnot : s ∉ (child s (s :: vis) post).2 := by
        intro hmem
        rcases hcnew s (s :: vis) post s hmem with h3 | h3
        · exact hs (h2 s h3)
        · exact h3 (List.mem_cons_self _ _)
      have hnodup2 : ((child s (s :: vis) post).2 ++ [s]).Nodup := by
        rw [List.nodup_append]
        exact ⟨hcn, List.nodup_singleton s,
          by simpa [List.disjoint_singleton] using hsnot⟩
      have hsub2 : ∀ x ∈ (child s (s :: vis) post).2 ++ [s],
          x ∈ (child s (s :: vis) post).1 := by
        intro x hx
        rcases List.mem_append.mp hx with h3 | h3
        · exact hcv x h3
        · have h4 := List.mem_singleton.mp h3
          subst h4
          obtain ⟨d, hd⟩ := hcvis x (x :: vis) post
          rw [hd]
          exact List.mem_append_right _ (List.mem_cons_self _ _)
      exact ih _ _ hnodup2 hsub2

/-- The postorder list of the traversal is duplicate free and contained in
the visited list. -/
theorem dfs_post_good (adj : α → List α) :
    ∀ (fuel : Nat) (todo vis post : List α), post.Nodup →
      (∀ x ∈ post, x ∈ vis) →
      (dfs adj fuel todo vis post).2.Nodup ∧
      ∀ x ∈ (dfs adj fuel todo vis post).2,
        x ∈ (dfs adj fuel todo vis post).1 := by
  intro fuel
  induction fuel with
  | zero => intro todo vis post h1 h2; exact ⟨h1, h2⟩
  | succ fuel ih =>
    intro todo vis post h1 h2
    simp only [dfs]
    exact dfsStep_post_good _ (fun s v p => dfs_vis_append adj fuel (adj s) v p)
      (fun s v p => dfs_post_new adj fuel (adj s) v p)
      (fun s v p => ih (adj s) v p) todo vis post h1 h2

end DFSLemmas2

section DFSLemmas3

variable {α : Type} [DecidableEq α]

/-- The number of universe nodes not yet visited, the measure showing the
chosen fuel suffices. -/
def unvisCard (U : List α) (vis : List α) : Nat :=
  (U.toFinset.filter (fun a => a ∉ vis)).card

theorem unvisCard_mono (U : List α) (vis vis' : List α)
    (h : ∀ x ∈ vis, x ∈ vis') : unvisCard U vis' ≤ unvisCard U vis := by
  refine Finset.card_le_card ?_
  intro a ha
  rw [Finset.mem_filter] at ha ⊢
  exact ⟨ha.1, fun hm => ha.2 (h a hm)⟩

theorem unvisCard_cons_lt (U : List α) (vis : List α) (s : α)
    (hsU : s ∈ U) (hs : s ∉ vis) :
    unvisCard U (s :: vis) < unvisCard U vis := by
  refine Finset.card_lt_card ?_
  constructor
  · intro a ha
    rw [Finset.mem_filter] at ha ⊢
    exact ⟨ha.1, fun hm => ha.2 (List.mem_cons_of_mem _ hm)⟩
  · intro hsub
    have hmem : s ∈ U.toFinset.filter (fun a => a ∉ vis) := by
      rw [Finset.mem_filter, List.mem_toFinset]
      exact ⟨hsU, hs⟩
    have := hsub hmem
    rw [Finset.mem_filter] at this
    exact this.2 (List.mem_cons_self _ _)

/-- With enough fuel, a traversal step pushes every node it visits: the
final visited list is contained in the initial one plus the final
postorder list. -/
theorem dfsStep_complete (U : List α)
    (child : α → List α → List α → List α × List α) (C : Nat)
    (hcvis : ∀ s v p, ∃ d, (child s v p).1 = d ++ v)
    (hcpost : ∀ s v p, ∃ d, (child s v p).2 = p ++ d)
    (hc : ∀ s v p, s ∈ U → unvisCard U v < C →
      ∀ x ∈ (child s v p).1, x ∈ v ∨ x ∈ (child s v p).2) :
    ∀ todo vis post, (∀ x ∈ todo, x ∈ U) → unvisCard U vis ≤ C →
      ∀ x ∈ (dfsStep child todo vis post).1,
        x ∈ vis ∨ x ∈ (dfsStep child todo vis post).2 := by
  intro todo
  induction todo with
  | nil => intro vis post _ _ x hx; exact Or.inl hx
  | cons s rest ih =>
    intro vis post htodo hcard x hx
    simp only [dfsStep] at hx ⊢
    by_cases hs : s ∈ vis
    · rw [if_pos hs] at hx ⊢
      exact ih vis post (fun y hy => htodo y (List.mem_cons_of_mem _ hy)) hcard x hx
    · rw [if_neg hs] at hx ⊢
      have hsU : s ∈ U := htodo s (List.mem_cons_self _ _)
      have hchild := hc s (s :: vis) post hsU
        (lt_of_lt_of_le (unvisCard_cons_lt U vis s hsU hs) hcard)
      have hcard2 : unvisCard U (child s (s :: vis) post).1 ≤ C := by
        refine le_trans (unvisCard_mono U vis _ ?_) hcard
        intro y hy
        obtain ⟨d, hd⟩ := hcvis s (s :: vis) post
        rw [hd]
        exact List.mem_append_right _ (List.mem_cons_of_mem _ hy)
      rcases ih _ _ (fun y hy => htodo y (List.mem_cons_of_mem _ hy)) hcard2 x hx
        with h | h
      · rcases hchild x h with h2 | h2
        · rcases List.mem_cons.mp h2 with h3 | h3
          · subst h3
            obtain ⟨d, hd⟩ := dfsStep_post_append child hcpost rest
              (child x (x :: vis) post).1 ((child x (x :: vis) post).2 ++ [x])
            rw [hd]
            exact Or.inr (List.mem_append_left _
              (List.mem_append_right _ (List.mem_singleton_self x)))
          · exact Or.inl h3
        · obtain ⟨d, hd⟩ := dfsStep_post_append child hcpost rest
            (child s (s :: vis) post).1 ((child s (s :: vis) post).2 ++ [s])
          rw [hd]
          exact Or.inr (List.mem_append_left _ (List.mem_append_left _ h2))
      · exact Or.inr h

/-- With fuel exceeding the number of unvisited universe nodes, every
visited node of the traversal ends up on the postorder list. -/
theorem dfs_complete (adj : α → List α) (U : List α)
    (hU : ∀ a ∈ U, ∀ b ∈ adj a, b ∈ U) :
    ∀ (fuel : Nat) (todo vis post : List α), (∀ x ∈ todo, x ∈ U) →
      unvisCard U vis < fuel →
      ∀ x ∈ (dfs adj fuel todo vis post).1,
        x ∈ vis ∨ x ∈ (dfs adj fuel todo vis post).2 := by
  intro fuel
  induction fuel with
  | zero => intro todo vis post _ h; exact absurd h (Nat.not_lt_zero _)
  | succ fuel ih =>
    intro todo vis post htodo hcard
    simp only [dfs]
    refine dfsStep_complete U _ fuel
      (fun s v p => dfs_vis_append adj fuel (adj s) v p)
      (fun s v p => dfs_post_append adj fuel (adj s) v p)
      ?_ todo vis post htodo (Nat.lt_succ_iff.mp hcard)
    intro s v p hsU hlt
    exact ih (adj s) v p (fun y hy => hU s hsU y hy) hlt

end DFSLemmas3

section DFSLemmas4

variable {α : Type} [DecidableEq α]

/-- The postorder list stays inside the visited list. -/
theorem dfsStep_post_sub (child : α → List α → List α → List α × List α)
    (hcvis : ∀ s v p, ∃ d, (child s v p).1 = d ++ v)
    (hc : ∀ s v p, (∀ x ∈ p, x ∈ v) →
      ∀ x ∈ (child s v p).2, x ∈ (child s v p).1) :
    ∀ todo vis post, (∀ x ∈ post, x ∈ vis) →
      ∀ x ∈ (dfsStep child todo vis post).2,
        x ∈ (dfsStep child todo vis post).1 := by
  intro todo
  induction todo with
  | nil => intro vis post hpv x hx; exact hpv x hx
  | cons s rest ih =>
    intro vis post hpv x hx
    simp only [dfsStep] at hx ⊢
    by_cases hs : s ∈ vis
    · rw [if_pos hs] at hx ⊢
      exact ih vis post hpv x hx
    · rw [if_neg hs] at hx ⊢
      refine ih _ _ ?_ x hx
      intro y hy
      rcases List.mem_append.mp hy with h2 | h2
      · exact hc s (s :: vis) post
          (fun z hz => List.mem_cons_of_mem _ (hpv z hz)) y h2
      · have h3 := List.mem_singleton.mp h2
        subst h3
        obtain ⟨d, hd⟩ := hcvis y (y :: vis) post
        rw [hd]
        exact List.mem_append_right _ (List.mem_cons_self _ _)

/-- The postorder list of `dfs` stays inside the visited list. -/
theorem dfs_post_sub (adj : α → List α) :
    ∀ (fuel : Nat) (todo vis post : List α), (∀ x ∈ post, x ∈ vis) →
      ∀ x ∈ (dfs adj fuel todo vis post).2,
        x ∈ (dfs adj fuel todo vis post).1 := by
  intro fuel
  induction fuel with
  | zero => intro todo vis post hpv x hx; exact hpv x hx
  | succ fuel ih =>
    intro todo vis post hpv
    simp only [dfs]
    exact dfsStep_post_sub _ (fun s v p => dfs_vis_append adj fuel (adj s) v p)
      (fun s v p => ih (adj s) v p) todo vis post hpv

/-- Stack discipline of the traversal: a node newly pushed to the
postorder list is either a worklist root or has a parent (a node whose
adjacency list contains it) pushed later. -/
theorem dfsStep_parent (adj : α → List α)
    (child : α → List α → List α → List α × List α)
    (hcvis : ∀ s v p, ∃ d, (child s v p).1 = d ++ v)
    (hcpost : ∀ s v p, ∃ d, (child s v p).2 = p ++ d)
    (hcnew : ∀ s v p, ∀ x ∈ (child s v p).2, x ∈ p ∨ x ∉ v)
    (hcsub : ∀ s v p, (∀ x ∈ p, x ∈ v) →
      ∀ x ∈ (child s v p).2, x ∈ (child s v p).1)
    (hc : ∀ s v p, (∀ x ∈ p, x ∈ v) → ∀ x ∈ (child s v p).2, x ∉ p →
      x ∈ adj s ∨ ∃ q, x ∈ adj q ∧ q ∈ (child s v p).2 ∧
        (child s v p).2.indexOf x < (child s v p).2.indexOf q) :
    ∀ todo vis post, (∀ x ∈ post, x ∈ vis) →
      ∀ x ∈ (dfsStep child todo vis post).2, x ∉ post →
        x ∈ todo ∨ ∃ q, x ∈ adj q ∧ q ∈ (dfsStep child todo vis post).2 ∧
          (dfsStep child todo vis post).2.indexOf x <
          (dfsStep child todo vis post).2.indexOf q := by
  intro todo
  induction todo with
  | nil => intro vis post _ x hx hnx; exact absurd hx hnx
  | cons s rest ih =>
    intro vis post hpv x hx hnx
    simp only [dfsStep] at hx ⊢
    by_cases hs : s ∈ vis
    · rw [if_pos hs] at hx ⊢
      rcases ih vis post hpv x hx hnx with h | h
      · exact Or.inl (List.mem_cons_of_mem _ h)
      · exact Or.inr h
    · rw [if_neg hs] at hx ⊢
      have hpv1 : ∀ z ∈ post, z ∈ s :: vis :=
        fun z hz => List.mem_cons_of_mem _ (hpv z hz)
      have hpv2 : ∀ z ∈ (child s (s :: vis) post).2 ++ [s],
          z ∈ (child s (s :: vis) post).1 := by
        intro z hz
        rcases List.mem_append.mp hz with h2 | h2
        · exact hcsub s (s :: vis) post hpv1 z h2
        · have h3 := List.mem_singleton.mp h2
          subst h3
          obtain ⟨d, hd⟩ := hcvis z (z :: vis) post
          rw [hd]
          exact List.mem_append_right _ (List.mem_cons_self _ _)
      by_cases hxin : x ∈ (child s (s :: vis) post).2 ++ [s]
      · obtain ⟨dr, hdr⟩ := dfsStep_post_append child hcpost rest
          (child s (s :: vis) post).1 ((child s (s :: vis) post).2 ++ [s])
        have hsnotc : s ∉ (child s (s :: vis) post).2 := by
          intro hmem
          rcases hcnew s (s :: vis) post s hmem with h3 | h3
          · exact hs (hpv s h3)
          · exact h3 (List.mem_cons_self _ _)
        rcases List.mem_append.mp hxin with hxc | hxs
        · rcases hc s (s :: vis) post hpv1 x hxc hnx with h2 | ⟨q, hq1, hq2, hq3⟩
          · refine Or.inr ⟨s, h2, ?_, ?_⟩
            · rw [hdr]
              exact List.mem_append_left _ (List.mem_append_right _
                (List.mem_singleton_self s))
            · rw [hdr, List.indexOf_append_of_mem (List.mem_append_left _ hxc),
                List.indexOf_append_of_mem
                  (List.mem_append_right _ (List.mem_singleton_self s)),
                List.indexOf_append_of_mem hxc,
                List.indexOf_append_of_not_mem hsnotc,
                List.indexOf_cons_self]
              have hlt := List.indexOf_lt_length.mpr hxc
              omega
          · refine Or.inr ⟨q, hq1, ?_, ?_⟩
            · rw [hdr]
              exact List.mem_append_left _ (List.mem_append_left _ hq2)
            · rw [hdr, List.indexOf_append_of_mem (List.mem_append_left _ hxc),
                List.indexOf_append_of_mem (List.mem_append_left _ hq2),
                List.indexOf_append_of_mem hxc,
                List.indexOf_append_of_mem hq2]
              exact hq3
        · have h3 := List.mem_singleton.mp hxs
          subst h3
          exact Or.inl (List.mem_cons_self _ _)
      · rcases ih _ _ hpv2 x hx hxin with h | h
        · exact Or.inl (List.mem_cons_of_mem _ h)
        · exact Or.inr h

/-- Stack discipline of `dfs`: every node on the postorder list is a
worklist root or has a parent pushed later than it. -/
theorem dfs_parent (adj : α → List α) :
    ∀ (fuel : Nat) (todo vis post : List α), (∀ x ∈ post, x ∈ vis) →
      ∀ x ∈ (dfs adj fuel todo vis post).2, x ∉ post →
        x ∈ todo ∨ ∃ q, x ∈ adj q ∧ q ∈ (dfs adj fuel todo vis post).2 ∧
          (dfs adj fuel todo vis post).2.indexOf x <
          (dfs adj fuel todo vis post).2.indexOf q := by
  intro fuel
  induction fuel with
  | zero => intro todo vis post _ x hx hnx; exact absurd hx hnx
  | succ fuel ih =>
    intro todo vis post hpv
    simp only [dfs]
    exact dfsStep_parent adj _
      (fun s v p => dfs_vis_append adj fuel (adj s) v p)
      (fun s v p => dfs_post_append adj fuel (adj s) v p)
      (fun s v p => dfs_post_new adj fuel (adj s) v p)
      (fun s v p => dfs_post_sub adj fuel (adj s) v p)
      (fun s v p => ih (adj s) v p) todo vis post hpv

end DFSLemmas4

/-! ## Helper lemmas about indices and reachability -/

section Helpers

variable {α : Type} [DecidableEq α]

/-- Position of an element in a reversed duplicate-free list. -/
theorem indexOf_reverse_of_nodup (l : List α) (hl : l.Nodup) (a : α)
    (ha : a ∈ l) :
    l.reverse.indexOf a = l.length - 1 - l.indexOf a := by
  have hi : l.indexOf a < l.length := List.indexOf_lt_length.mpr ha
  have hj : l.length - 1 - l.indexOf a < l.reverse.length := by
    rw [List.length_reverse]; omega
  have hget : l.reverse.get ⟨l.length - 1 - l.indexOf a, hj⟩ = a := by
    rw [List.get_eq_getElem, List.getElem_reverse]
    have hsub : l.length - 1 - (l.length - 1 - l.indexOf a) = l.indexOf a := by
      omega
    simp only [hsub]
    exact List.getElem_indexOf hi
  have hnr : l.reverse.Nodup := List.nodup_reverse.mpr hl
  have := List.indexOf_getElem hnr (l.length - 1 - l.indexOf a) hj
  simp only [List.get_eq_getElem] at hget
  rw [hget] at this
  exact this

/-- Index comparison flips under reversal for duplicate-free lists. -/
theorem indexOf_reverse_lt (l : List α) (hl : l.Nodup) (a b : α)
    (ha : a ∈ l) (hb : b ∈ l) (h : l.indexOf a < l.indexOf b) :
    l.reverse.indexOf b < l.reverse.indexOf a := by
  rw [indexOf_reverse_of_nodup l hl a ha, indexOf_reverse_of_nodup l hl b hb]
  have hia : l.indexOf a < l.length := List.indexOf_lt_length.mpr ha
  have hib : l.indexOf b < l.length := List.indexOf_lt_length.mpr hb
  omega

/-- The two lawful boolean-equality instances on `Option Nat` agree. -/
theorem option_beq_eq_decide (x y : Option Nat) :
    (x == y) = @BEq.beq _ instBEqOfDecidableEq x y := by
  show (x == y) = decide (x = y)
  by_cases hxy : x = y
  · subst hxy; simp
  · simp [hxy]

/-- `List.indexOf` only depends on the boolean-equality function. -/
theorem indexOf_beq_congr {β : Type} (i1 i2 : BEq β)
    (h : ∀ a b : β, @BEq.beq β i1 a b = @BEq.beq β i2 a b) (a : β) :
    ∀ l : List β, @List.indexOf β i1 a l = @List.indexOf β i2 a l := by
  intro l
  induction l with
  | nil => rfl
  | cons b t ih =>
    have e1 := @List.indexOf_cons β b t a i1
    have e2 := @List.indexOf_cons β b t a i2
    rw [e1, e2, h b a, ih]

/-- Bridge from the `Option` boolean equality used by elaboration to the
one the index lemmas are stated with. -/
theorem indexOf_option (a : Option Nat) (l : List (Option Nat)) :
    l.indexOf a = @List.indexOf (Option Nat) instBEqOfDecidableEq a l :=
  indexOf_beq_congr _ _ option_beq_eq_decide a l

/-- Position of a mapped element under `some`. -/
theorem indexOf_map_some (l : List Nat) (q : Nat) :
    (l.map some).indexOf (some q) = l.indexOf q := by
  rw [indexOf_option]
  induction l with
  | nil => rfl
  | cons a t ih =>
    rw [List.map_cons]
    by_cases h : a = q
    · subst h
      rw [List.indexOf_cons_self, List.indexOf_cons_self]
    · rw [List.indexOf_cons_ne _ (show some a ≠ some q by simpa using h),
        List.indexOf_cons_ne _ h, ih]

end Helpers

/-- Reachability stays inside an adjacency-closed universe. -/
theorem reach_mem {α : Type} (adj : α → List α) (U : List α)
    (hU : ∀ a ∈ U, ∀ b ∈ adj a, b ∈ U) (a b : α)
    (h : ReachRel adj a b) (haU : a ∈ U) : b ∈ U := by
  induction h with
  | refl => exact haU
  | tail _ hstep ih => exact hU _ ih _ hstep

/-! ## Facts about the dominator-side traversal -/

/-- The visited list and postorder list of `computeDominators`' traversal
have the same elements. -/
theorem domReach_eq_rpo (g : CFG) (hwf : g.WF) (x : Nat) :
    x ∈ domReach g ↔ x ∈ (domDFS g).2 := by
  constructor
  · intro hx
    have := dfs_complete g.succ g.blocks hwf.succ_mem
      (g.blocks.length + 1) [g.entry] [] []
      (by intro y hy; rcases List.mem_singleton.mp hy with rfl; exact hwf.entry_mem)
      (by
        have hle : (g.blocks.toFinset.filter (fun a => a ∉ ([] : List Nat))).card ≤
            g.blocks.length := by
          refine le_trans (Finset.card_filter_le _ _) ?_
          exact le_trans (List.toFinset_card_le _) (le_refl _)
        simpa [unvisCard] using Nat.lt_succ_of_le hle)
      x hx
    rcases this with h | h
    · cases h
    · exact h
  · intro hx
    exact dfs_post_sub g.succ (g.blocks.length + 1) [g.entry] [] []
      (by intro y hy; cases hy) x hx

/-- The postorder of `computeDominators`' traversal has no duplicates. -/
theorem domPost_nodup (g : CFG) : (domDFS g).2.Nodup :=
  (dfs_post_good g.succ (g.blocks.length + 1) [g.entry] [] []
    List.nodup_nil (by intro y hy; cases hy)).1

/-- The reverse postorder of `computeDominators` has no duplicates. -/
theorem domRPO_nodup (g : CFG) : (domRPO g).Nodup :=
  List.nodup_reverse.mpr (domPost_nodup g)

/-- The entry block is pushed last by the traversal, hence heads the
reverse postorder. -/
theorem domRPO_head (g : CFG) :
    ∃ t, domRPO g = g.entry :: t := by
  refine ⟨(dfs g.succ (g.blocks.length) (g.succ g.entry) [g.entry] []).2.reverse, ?_⟩
  simp [domRPO, domDFS, dfs, dfsStep]

/-- The root index of `computeDominators` is `0`. -/
theorem domRoot_eq_zero (g : CFG) : domRoot g = 0 := by
  obtain ⟨t, ht⟩ := domRPO_head g
  rw [domRoot, ht, List.indexOf_cons_self]

/-- The reverse postorder of `computeDominators` is nonempty. -/
theorem domN_pos (g : CFG) : 0 < domN g := by
  obtain ⟨t, ht⟩ := domRPO_head g
  rw [domN, ht]
  exact Nat.succ_pos _

/-- Every visited block of the dominator traversal is reachable from the
entry block along successor edges. -/
theorem domReach_sound (g : CFG) (x : Nat) (hx : x ∈ domReach g) :
    ReachRel g.succ g.entry x := by
  rcases dfs_sound g.succ (g.blocks.length + 1) [g.entry] [] [] x hx with h | ⟨r, hr, hrx⟩
  · cases h
  · rcases List.mem_singleton.mp hr with rfl; exact hrx

/-- Every visited block of the dominator traversal is a block of the
function. -/
theorem domReach_blocks (g : CFG) (hwf : g.WF) (x : Nat)
    (hx : x ∈ domReach g) : x ∈ g.blocks :=
  reach_mem g.succ g.blocks hwf.succ_mem g.entry x (domReach_sound g x hx)
    hwf.entry_mem

/-- The candidate indices of `computeDominators` are positions in the
reverse postorder. -/
theorem candsD_bound (g : CFG) (hwf : g.WF) (i : Nat) :
    ∀ c ∈ candsD g i, 0 ≤ c ∧ c < (domN g : Int) := by
  intro c hc
  unfold candsD at hc
  rcases List.mem_map.mp hc with ⟨p, hp, rfl⟩
  rcases List.mem_filter.mp hp with ⟨_, hp2⟩
  have hpost : p ∈ (domDFS g).2 :=
    (domReach_eq_rpo g hwf p).mp (of_decide_eq_true hp2)
  have hmem : p ∈ domRPO g := List.mem_reverse.mpr hpost
  refine ⟨Int.ofNat_nonneg _, ?_⟩
  exact_mod_cast List.indexOf_lt_length.mpr hmem

/-- Positions of a duplicate-free list holding equal elements coincide. -/
theorem nodup_getElem_inj {α : Type} {l : List α} (h : l.Nodup)
    (i j : Nat) (hi : i < l.length) (hj : j < l.length)
    (he : l[i] = l[j]) : i = j :=
  (List.Nodup.getElem_inj_iff h).mp he

/-- Every non-root position of the dominator reverse postorder has a
reachable predecessor at a strictly smaller position: its depth-first tree
parent. -/
theorem candsD_parent (g : CFG) (hwf : g.WF) (i : Nat) (h0 : 0 < i)
    (hn : i < domN g) : ∃ c ∈ candsD g i, c < (i : Int) := by
  have hrlen : i < (domRPO g).length := hn
  have hplen : i < (domDFS g).2.length := by
    have : (domRPO g).length = (domDFS g).2.length := by
      rw [domRPO, List.length_reverse]
    omega
  have hgetd : (domRPO g).getD i 0 = (domRPO g)[i] :=
    List.getD_eq_getElem _ _ hrlen
  have hxrpo : (domRPO g)[i] ∈ domRPO g := List.getElem_mem _
  have hxpost : (domRPO g)[i] ∈ (domDFS g).2 := List.mem_reverse.mp hxrpo
  have hxentry : (domRPO g)[i] ≠ g.entry := by
    obtain ⟨t, ht⟩ := domRPO_head g
    intro heq
    have h0lt : 0 < (domRPO g).length := domN_pos g
    have hrpo0 : (domRPO g)[0] = g.entry := by
      simp [ht]
    have := nodup_getElem_inj (domRPO_nodup g) i 0 hrlen h0lt
      (by rw [hrpo0, heq])
    omega
  rcases dfs_parent g.succ (g.blocks.length + 1) [g.entry] [] []
      (by intro y hy; cases hy) (domRPO g)[i] hxpost (by intro h; cases h)
    with h | ⟨q, hqadj, hqpost, hidx⟩
  · exact absurd (List.mem_singleton.mp h) hxentry
  · have hqreach : q ∈ domReach g := (domReach_eq_rpo g hwf q).mpr hqpost
    have hqblocks : q ∈ g.blocks := domReach_blocks g hwf q hqreach
    have hxreach : (domRPO g)[i] ∈ domReach g :=
      (domReach_eq_rpo g hwf _).mpr hxpost
    have hxblocks : (domRPO g)[i] ∈ g.blocks :=
      domReach_blocks g hwf _ hxreach
    have hqpred : q ∈ g.pred (domRPO g)[i] :=
      (hwf.dual q hqblocks _ hxblocks).mpr hqadj
    have hqlt : (domRPO g).indexOf q < i := by
      have h1 : (domDFS g).2.reverse.indexOf q <
          (domDFS g).2.reverse.indexOf (domRPO g)[i] :=
        indexOf_reverse_lt _ (domPost_nodup g) _ _ hxpost hqpost hidx
      have h2 : (domDFS g).2.reverse.indexOf (domRPO g)[i] = i := by
        have := List.indexOf_getElem (domRPO_nodup g) i hrlen
        simpa [domRPO] using this
      rw [h2] at h1
      exact h1
    refine ⟨((domRPO g).indexOf q : Int), ?_, ?_⟩
    · unfold candsD
      refine List.mem_map.mpr ⟨q, ?_, rfl⟩
      refine List.mem_filter.mpr ⟨?_, ?_⟩
      · rw [hgetd]; exact hqpred
      · exact decide_eq_true hqreach
    · exact_mod_cast hqlt

/-! ## Facts about the post-dominator-side traversal -/

/-- The visited list and postorder list of `computePostDominators`'
traversal have the same elements. -/
theorem pdReach0_eq_rpo0 (g : CFG) (hwf : g.WF) (x : Nat) :
    x ∈ (pdDFS g).1 ↔ x ∈ (pdDFS g).2 := by
  constructor
  · intro hx
    have := dfs_complete g.pred g.blocks hwf.pred_mem
      (g.blocks.length + 1) (exitBlocks g) [] []
      (by intro y hy; exact List.mem_of_mem_filter hy)
      (by
        have hle : (g.blocks.toFinset.filter (fun a => a ∉ ([] : List Nat))).card ≤
            g.blocks.length := by
          refine le_trans (Finset.card_filter_le _ _) ?_
          exact le_trans (List.toFinset_card_le _) (le_refl _)
        simpa [unvisCard] using Nat.lt_succ_of_le hle)
      x hx
    rcases this with h | h
    · cases h
    · exact h
  · intro hx
    exact dfs_post_sub g.pred (g.blocks.length + 1) (exitBlocks g) [] []
      (by intro y hy; cases hy) x hx

/-- The postorder of `computePostDominators`' traversal has no
duplicates. -/
theorem pdPost_nodup (g : CFG) : (pdDFS g).2.Nodup :=
  (dfs_post_good g.pred (g.blocks.length + 1) (exitBlocks g) [] []
    List.nodup_nil (by intro y hy; cases hy)).1

/-- The reverse postorder of `computePostDominators`, virtual exit
included, has no duplicates. -/
theorem pdRPO_nodup (g : CFG) : (pdRPO g).Nodup := by
  rw [pdRPO]
  refine List.nodup_cons.mpr ⟨?_, ?_⟩
  · intro h
    rcases List.mem_map.mp h with ⟨b, _, hb⟩
    cases hb
  · exact (List.nodup_reverse.mpr (pdPost_nodup g)).map
      (fun a b => by simp)

/-- The reverse postorder of `computePostDominators` is nonempty. -/
theorem pdN_pos (g : CFG) : 0 < pdN g := by
  rw [pdN, pdRPO]
  exact Nat.succ_pos _

/-- Every block visited by the post-dominator traversal is backward
reachable from some exit block. -/
theorem pdReach_sound (g : CFG) (x : Nat) (hx : x ∈ (pdDFS g).1) :
    ∃ r ∈ exitBlocks g, ReachRel g.pred r x := by
  rcases dfs_sound g.pred (g.blocks.length + 1) (exitBlocks g) [] [] x hx
    with h | h
  · cases h
  · exact h

/-- Every block visited by the post-dominator traversal is a block of the
function. -/
theorem pdReach_blocks (g : CFG) (hwf : g.WF) (x : Nat)
    (hx : x ∈ (pdDFS g).1) : x ∈ g.blocks := by
  rcases pdReach_sound g x hx with ⟨r, hr, hrx⟩
  exact reach_mem g.pred g.blocks hwf.pred_mem r x hrx
    (List.mem_of_mem_filter hr)

/-- The candidate indices of `computePostDominators` are positions in its
reverse postorder. -/
theorem candsP_bound (g : CFG) (hwf : g.WF) (i : Nat) :
    ∀ c ∈ candsP g i, 0 ≤ c ∧ c < (pdN g : Int) := by
  intro c hc
  unfold candsP at hc
  rcases List.mem_map.mp hc with ⟨s, hs, rfl⟩
  rcases List.mem_filter.mp hs with ⟨_, hs2⟩
  have hreach : s ∈ pdReach g := of_decide_eq_true hs2
  have hmem : s ∈ pdRPO g := by
    rw [pdReach] at hreach
    rcases List.mem_cons.mp hreach with h | h
    · rw [pdRPO, h]; exact List.mem_cons_self _ _
    · rcases List.mem_map.mp h with ⟨b, hb, hbs⟩
      rw [pdRPO]
      refine List.mem_cons_of_mem _ ?_
      refine List.mem_map.mpr ⟨b, ?_, hbs⟩
      exact List.mem_reverse.mpr ((pdReach0_eq_rpo0 g hwf b).mp hb)
  refine ⟨Int.ofNat_nonneg _, ?_⟩
  rw [indexOf_option]
  exact_mod_cast List.indexOf_lt_length.mpr hmem

/-- Every non-root position of the post-dominator reverse postorder has a
candidate successor index at a strictly smaller position: the virtual exit
for exit blocks, the depth-first tree parent otherwise. -/
theorem candsP_parent (g : CFG) (hwf : g.WF) (i : Nat) (h0 : 0 < i)
    (hn : i < pdN g) : ∃ c ∈ candsP g i, c < (i : Int) := by
  obtain ⟨j, rfl⟩ : ∃ j, i = j + 1 := ⟨i - 1, by omega⟩
  have hlen : j + 1 < (pdRPO g).length := hn
  have hj : j < ((pdDFS g).2.reverse.map some).length := by
    rw [pdRPO] at hlen
    simpa using Nat.lt_of_succ_lt_succ hlen
  have hjr : j < (pdDFS g).2.reverse.length := by simpa using hj
  have hgetd : (pdRPO g).getD (j + 1) none = some (((pdDFS g).2.reverse)[j]) := by
    rw [List.getD_eq_getElem _ _ hlen]
    simp only [pdRPO, List.getElem_cons_succ, List.getElem_map]
  have hbpost : ((pdDFS g).2.reverse)[j] ∈ (pdDFS g).2 := by
    rw [← List.mem_reverse]
    exact List.getElem_mem _
  by_cases hsucc : g.succ (((pdDFS g).2.reverse)[j]) = []
  · refine ⟨((pdRPO g).indexOf none : Int), ?_, ?_⟩
    · unfold candsP
      refine List.mem_map.mpr ⟨none, ?_, rfl⟩
      refine List.mem_filter.mpr ⟨?_, ?_⟩
      · simp only [pdSuccs, hgetd]
        rw [if_pos hsucc]
        exact List.mem_singleton_self _
      · refine decide_eq_true ?_
        rw [pdReach]
        exact List.mem_cons_self _ _
    · have hz : (pdRPO g).indexOf none = 0 := by
        rw [indexOf_option, pdRPO, List.indexOf_cons_self]
      rw [hz]
      exact_mod_cast h0
  · have hbnotexit : ((pdDFS g).2.reverse)[j] ∉ exitBlocks g := by
      intro hmem
      exact hsucc (of_decide_eq_true (List.mem_filter.mp hmem).2)
    rcases dfs_parent g.pred (g.blocks.length + 1) (exitBlocks g) [] []
        (by intro y hy; cases hy) (((pdDFS g).2.reverse)[j]) hbpost
        (by intro h; cases h)
      with h | ⟨q, hqadj, hqpost, hidx⟩
    · exact absurd h hbnotexit
    · have hbvis : ((pdDFS g).2.reverse)[j] ∈ (pdDFS g).1 :=
        (pdReach0_eq_rpo0 g hwf _).mpr hbpost
      have hbblocks : ((pdDFS g).2.reverse)[j] ∈ g.blocks :=
        pdReach_blocks g hwf _ hbvis
      have hqvis : q ∈ (pdDFS g).1 := (pdReach0_eq_rpo0 g hwf q).mpr hqpost
      have hqblocks : q ∈ g.blocks := pdReach_blocks g hwf q hqvis
      have hqsucc : q ∈ g.succ (((pdDFS g).2.reverse)[j]) :=
        (hwf.dual _ hbblocks q hqblocks).mp hqadj
      have hqlt : ((pdDFS g).2.reverse).indexOf q < j := by
        have h1 : ((pdDFS g).2.reverse).indexOf q <
            ((pdDFS g).2.reverse).indexOf (((pdDFS g).2.reverse)[j]) :=
          indexOf_reverse_lt _ (pdPost_nodup g) _ _ hbpost hqpost hidx
        have h2 : ((pdDFS g).2.reverse).indexOf (((pdDFS g).2.reverse)[j]) = j :=
          List.indexOf_getElem (List.nodup_reverse.mpr (pdPost_nodup g)) j hjr
        rw [h2] at h1
        exact h1
      refine ⟨((pdRPO g).indexOf (some q) : Int), ?_, ?_⟩
      · unfold candsP
        refine List.mem_map.mpr ⟨some q, ?_, rfl⟩
        refine List.mem_filter.mpr ⟨?_, ?_⟩
        · simp only [pdSuccs, hgetd]
          rw [if_neg hsucc]
          exact List.mem_map.mpr ⟨q, hqsucc, rfl⟩
        · refine decide_eq_true ?_
          rw [pdReach]
          refine List.mem_cons_of_mem _ ?_
          exact List.mem_map.mpr ⟨q, hqvis, rfl⟩
      · have hval : (pdRPO g).indexOf (some q) =
            ((pdDFS g).2.reverse).indexOf q + 1 := by
          rw [indexOf_option, pdRPO,
            List.indexOf_cons_ne _ (show (none : Option Nat) ≠ some q by simp),
            ← indexOf_option, indexOf_map_some]
        rw [hval]
        exact_mod_cast Nat.succ_lt_succ hqlt

/-! ## Invariants of the iterative core -/

/-- Reading an updated slot. -/
theorem getD_set!_self (d : Array Int) (i : Nat) (v : Int) (h : i < d.size) :
    (d.set! i v).getD i (-1) = v := by
  simp [Array.set!, Array.getD, Array.size_setD, h]

/-- Reading an untouched slot. -/
theorem getD_set!_ne (d : Array Int) (i j : Nat) (v : Int) (h : i ≠ j) :
    (d.set! i v).getD j (-1) = d.getD j (-1) := by
  by_cases hj : j < d.size
  · by_cases hi : i < d.size
    · simp [Array.set!_is_setD, Array.getD, hj, Array.setD, hi,
        Array.getElem_set_ne, h]
    · simp [Array.set!_is_setD, Array.getD, hj, Array.setD, hi]
  · simp [Array.set!_is_setD, Array.getD, hj]

/-- `idomGet` at a nonnegative index is a plain default read. -/
theorem idomGet_nonneg (d : Array Int) (b : Int) (h : 0 ≤ b) :
    idomGet d b = d.getD b.toNat (-1) := by
  rw [idomGet, if_neg (not_lt.mpr h)]

/-- `idomGet` at a natural index. -/
theorem idomGet_natCast (d : Array Int) (j : Nat) :
    idomGet d (j : Int) = d.getD j (-1) := by
  rw [idomGet_nonneg d _ (Int.ofNat_nonneg j), Int.toNat_natCast]

/-- The invariant maintained by every update of the iterative core: the
array has the right size, the root slot holds the root, every other
assigned slot holds a strictly smaller index, and assigned slots point to
assigned slots. -/
structure ChkInv (n : Nat) (d : Array Int) : Prop where
  size : d.size = n
  root : d.getD 0 (-1) = 0
  lt : ∀ j, 0 < j → j < n →
    d.getD j (-1) = -1 ∨ (0 ≤ d.getD j (-1) ∧ d.getD j (-1) < (j : Int))
  ptr : ∀ j, j < n → 0 ≤ d.getD j (-1) →
    0 ≤ d.getD (d.getD j (-1)).toNat (-1)

/-- Assigned slots hold indices below `n`. -/
theorem ChkInv.val_lt {n : Nat} {d : Array Int} (h : ChkInv n d) (hn : 0 < n)
    (j : Nat) (hj : j < n) (ha : 0 ≤ d.getD j (-1)) :
    d.getD j (-1) < (n : Int) := by
  by_cases h0 : j = 0
  · subst h0; rw [h.root]; exact_mod_cast hn
  · rcases h.lt j (by omega) hj with he | ⟨_, hlt⟩
    · omega
    · have : (j : Int) < (n : Int) := by exact_mod_cast hj
      omega

/-- A slot that is not `-1` is assigned (nonnegative). -/
theorem ChkInv.assigned {n : Nat} {d : Array Int} (h : ChkInv n d)
    (j : Nat) (hj : j < n) (hne : d.getD j (-1) ≠ -1) :
    0 ≤ d.getD j (-1) := by
  by_cases h0 : j = 0
  · subst h0; rw [h.root]
  · rcases h.lt j (by omega) hj with he | ⟨h1, _⟩
    · exact absurd he hne
    · exact h1

/-- What one intersection walk returns, under the invariant: an assigned
index bounded by both arguments. -/
theorem intersectIdx_spec (n : Nat) (d : Array Int) (hinv : ChkInv n d) :
    ∀ (fuel : Nat) (b1 b2 : Int), 0 ≤ b1 → b1 < (n : Int) → 0 ≤ b2 →
      b2 < (n : Int) →
      0 ≤ d.getD b1.toNat (-1) → 0 ≤ d.getD b2.toNat (-1) →
      b1.toNat + b2.toNat < fuel →
      0 ≤ intersectIdx d fuel b1 b2 ∧
      intersectIdx d fuel b1 b2 < (n : Int) ∧
      intersectIdx d fuel b1 b2 ≤ b1 ∧ intersectIdx d fuel b1 b2 ≤ b2 ∧
      0 ≤ d.getD (intersectIdx d fuel b1 b2).toNat (-1) := by
  intro fuel
  induction fuel with
  | zero => intro b1 b2 _ _ _ _ _ _ hf; omega
  | succ fuel ih =>
    intro b1 b2 h1 h1n h2 h2n ha1 ha2 hf
    simp only [intersectIdx]
    by_cases heq : b1 = b2
    · rw [if_pos heq]
      exact ⟨h1, h1n, le_refl _, le_of_eq heq, ha1⟩
    · rw [if_neg heq]
      by_cases hgt : b1 > b2
      · rw [if_pos hgt]
        have hb1pos : 0 < b1 := lt_of_le_of_lt h2 hgt
        have hig : idomGet d b1 = d.getD b1.toNat (-1) := idomGet_nonneg d b1 h1
        have hv := hinv.lt b1.toNat (by omega) (by omega)
        rcases hv with he | ⟨hv0, hvlt⟩
        · omega
        · have hvlt2 : d.getD b1.toNat (-1) < b1 := by omega
          have hptr := hinv.ptr b1.toNat (by omega) ha1
          have := ih (d.getD b1.toNat (-1)) b2 hv0 (by omega) h2 h2n hptr ha2
            (by omega)
          rw [hig]
          refine ⟨this.1, this.2.1, le_trans this.2.2.1 (le_of_lt hvlt2),
            this.2.2.2.1, this.2.2.2.2⟩
      · have hgt2 : b2 > b1 := by omega
        rw [if_neg hgt]
        have hb2pos : 0 < b2 := lt_of_le_of_lt h1 hgt2
        have hig : idomGet d b2 = d.getD b2.toNat (-1) := idomGet_nonneg d b2 h2
        have hv := hinv.lt b2.toNat (by omega) (by omega)
        rcases hv with he | ⟨hv0, hvlt⟩
        · omega
        · have hvlt2 : d.getD b2.toNat (-1) < b2 := by omega
          have hptr := hinv.ptr b2.toNat (by omega) ha2
          have := ih b1 (d.getD b2.toNat (-1)) h1 h1n hv0 (by omega) ha1 hptr
            (by omega)
          rw [hig]
          refine ⟨this.1, this.2.1, this.2.2.1,
            le_trans this.2.2.2.1 (le_of_lt hvlt2), this.2.2.2.2⟩

/-- What the candidate fold (`new_idom` computation) returns, under the
invariant: either `-1` (no assigned candidate was seen and the accumulator
was `-1`), or an assigned index bounded by every assigned candidate and by
the initial accumulator. -/
theorem foldCands_spec (n : Nat) (d : Array Int) (hinv : ChkInv n d)
    (fuel : Nat) (hfuel : 2 * n ≤ fuel) :
    ∀ (cs : List Int) (acc : Int),
      (∀ c ∈ cs, 0 ≤ c ∧ c < (n : Int)) →
      (acc = -1 ∨ (0 ≤ acc ∧ acc < (n : Int) ∧ 0 ≤ d.getD acc.toNat (-1))) →
      ((foldCands d fuel cs acc = -1 →
        acc = -1 ∧ ∀ c ∈ cs, d.getD c.toNat (-1) = -1) ∧
       (foldCands d fuel cs acc ≠ -1 →
        0 ≤ foldCands d fuel cs acc ∧ foldCands d fuel cs acc < (n : Int) ∧
        0 ≤ d.getD (foldCands d fuel cs acc).toNat (-1)) ∧
       (∀ c ∈ cs, 0 ≤ d.getD c.toNat (-1) → foldCands d fuel cs acc ≤ c) ∧
       (acc ≠ -1 → foldCands d fuel cs acc ≤ acc)) := by
  intro cs
  induction cs with
  | nil =>
    intro acc _ hacc
    simp only [foldCands]
    refine ⟨fun h => ⟨h, fun c hc => absurd hc (List.not_mem_nil c)⟩, ?_,
      fun c hc => absurd hc (List.not_mem_nil c), fun _ => le_refl _⟩
    intro hne
    rcases hacc with h | h
    · exact absurd h hne
    · exact h
  | cons c rest ih =>
    intro acc hcs hacc
    have hc := hcs c (List.mem_cons_self _ _)
    have hrest : ∀ x ∈ rest, 0 ≤ x ∧ x < (n : Int) :=
      fun x hx => hcs x (List.mem_cons_of_mem _ hx)
    have higc : idomGet d c = d.getD c.toNat (-1) := idomGet_nonneg d c hc.1
    simp only [foldCands]
    by_cases hskip : idomGet d c = -1
    · rw [if_pos hskip]
      have hres := ih acc hrest hacc
      refine ⟨?_, hres.2.1, ?_, hres.2.2.2⟩
      · intro h
        obtain ⟨h1, h2⟩ := hres.1 h
        refine ⟨h1, ?_⟩
        intro x hx
        rcases List.mem_cons.mp hx with h3 | h3
        · subst h3; rw [← higc]; exact hskip
        · exact h2 x h3
      · intro x hx hxa
        rcases List.mem_cons.mp hx with h3 | h3
        · subst h3; rw [higc] at hskip; omega
        · exact hres.2.2.1 x h3 hxa
    · rw [if_neg hskip]
      have hca : 0 ≤ d.getD c.toNat (-1) := by
        rw [higc] at hskip
        exact hinv.assigned c.toNat (by omega) hskip
      by_cases hacc1 : acc = -1
      · rw [if_pos hacc1]
        have hres := ih c hrest (Or.inr ⟨hc.1, hc.2, hca⟩)
        have hne : foldCands d fuel rest c ≠ -1 := by
          intro h
          have := (hres.1 h).1
          omega
        refine ⟨fun h => absurd h hne, hres.2.1, ?_,
          fun hcon => absurd hacc1 hcon⟩
        intro x hx hxa
        rcases List.mem_cons.mp hx with h3 | h3
        · subst h3; exact hres.2.2.2 (by omega)
        · exact hres.2.2.1 x h3 hxa
      · rw [if_neg hacc1]
        rcases hacc with h | ⟨ha0, han, haa⟩
        · exact absurd h hacc1
        have hint := intersectIdx_spec n d hinv fuel acc c ha0 han hc.1 hc.2
          haa hca (by omega)
        have hres := ih (intersectIdx d fuel acc c) hrest
          (Or.inr ⟨hint.1, hint.2.1, hint.2.2.2.2⟩)
        have hne : foldCands d fuel rest (intersectIdx d fuel acc c) ≠ -1 := by
          intro h
          have := (hres.1 h).1
          omega
        refine ⟨fun h => absurd h hne, hres.2.1, ?_, ?_⟩
        · intro x hx hxa
          rcases List.mem_cons.mp hx with h3 | h3
          · subst h3
            exact le_trans (hres.2.2.2 (by omega)) hint.2.2.2.1
          · exact hres.2.2.1 x h3 hxa
        · intro _
          exact le_trans (hres.2.2.2 (by omega)) hint.2.2.1

/-- A pass leaves slots below its starting index untouched. -/
theorem chkPass_frame (cands : Nat → List Int) (n : Nat) :
    ∀ (k i : Nat) (d : Array Int) (ch : Bool) (j : Nat), j < i →
      (chkPass cands 0 n k i d ch).1.getD j (-1) = d.getD j (-1) := by
  intro k
  induction k with
  | zero => intro i d ch j hj; rfl
  | succ k ih =>
    intro i d ch j hj
    simp only [chkPass]
    by_cases hroot : i = 0
    · rw [if_pos hroot]; exact ih _ _ _ j (by omega)
    · rw [if_neg hroot]
      by_cases hne : idomGet d i ≠ foldCands d (2 * n + 2) (cands i) (-1)
      · rw [if_pos hne]
        rw [ih _ _ _ j (by omega), getD_set!_ne d i j _ (by omega)]
      · rw [if_neg hne]
        exact ih _ _ _ j (by omega)

/-- A pass preserves the array size. -/
theorem chkPass_size (cands : Nat → List Int) (n : Nat) :
    ∀ (k i : Nat) (d : Array Int) (ch : Bool),
      (chkPass cands 0 n k i d ch).1.size = d.size := by
  intro k
  induction k with
  | zero => intro i d ch; rfl
  | succ k ih =>
    intro i d ch
    simp only [chkPass]
    by_cases hroot : i = 0
    · rw [if_pos hroot]; exact ih _ _ _
    · rw [if_neg hroot]
      by_cases hne : idomGet d i ≠ foldCands d (2 * n + 2) (cands i) (-1)
      · rw [if_pos hne, ih _ _ _, Array.size_set!]
      · rw [if_neg hne]; exact ih _ _ _

/-- A pass never touches the root slot. -/
theorem chkPass_root (cands : Nat → List Int) (n : Nat) :
    ∀ (k i : Nat) (d : Array Int) (ch : Bool),
      (chkPass cands 0 n k i d ch).1.getD 0 (-1) = d.getD 0 (-1) := by
  intro k
  induction k with
  | zero => intro i d ch; rfl
  | succ k ih =>
    intro i d ch
    simp only [chkPass]
    by_cases hroot : i = 0
    · rw [if_pos hroot]; exact ih _ _ _
    · rw [if_neg hroot]
      by_cases hne : idomGet d i ≠ foldCands d (2 * n + 2) (cands i) (-1)
      · rw [if_pos hne, ih _ _ _, getD_set!_ne d i 0 _ hroot]
      · rw [if_neg hne]; exact ih _ _ _

/-- Main property of one pass: starting with the invariant and every slot
below the current index assigned, the pass keeps the invariant and leaves
every slot assigned. -/
theorem chkPass_spec (cands : Nat → List Int) (n : Nat) (hn : 0 < n)
    (hb : ∀ i, 0 < i → i < n → ∀ c ∈ cands i, 0 ≤ c ∧ c < (n : Int))
    (hp : ∀ i, 0 < i → i < n → ∃ c ∈ cands i, c < (i : Int)) :
    ∀ (k i : Nat) (d : Array Int) (ch : Bool), i + k = n → ChkInv n d →
      (∀ j, j < i → 0 ≤ d.getD j (-1)) →
      ChkInv n (chkPass cands 0 n k i d ch).1 ∧
      (∀ j, j < n → 0 ≤ (chkPass cands 0 n k i d ch).1.getD j (-1)) := by
  intro k
  induction k with
  | zero =>
    intro i d ch hik hinv hpre
    exact ⟨hinv, fun j hj => hpre j (by omega)⟩
  | succ k ih =>
    intro i d ch hik hinv hpre
    simp only [chkPass]
    by_cases hroot : i = 0
    · rw [if_pos hroot]
      refine ih (i + 1) d ch (by omega) hinv ?_
      intro j hj
      have : j = 0 := by omega
      subst this
      rw [hinv.root]
    · rw [if_neg hroot]
      have hi_n : i < n := by omega
      obtain ⟨c, hc_mem, hc_lt⟩ := hp i (by omega) hi_n
      have hc_b := hb i (by omega) hi_n c hc_mem
      have hc_toNat : c.toNat < i := by omega
      have hc_assigned : 0 ≤ d.getD c.toNat (-1) := hpre c.toNat hc_toNat
      have hfold := foldCands_spec n d hinv (2 * n + 2) (by omega) (cands i)
        (-1) (hb i (by omega) hi_n) (Or.inl rfl)
      have hfne : foldCands d (2 * n + 2) (cands i) (-1) ≠ -1 := by
        intro h
        have := (hfold.1 h).2 c hc_mem
        omega
      have hfv := hfold.2.1 hfne
      have hf_le : foldCands d (2 * n + 2) (cands i) (-1) ≤ c :=
        hfold.2.2.1 c hc_mem hc_assigned
      have hf_lt_i : foldCands d (2 * n + 2) (cands i) (-1) < (i : Int) := by
        omega
      by_cases hne : idomGet d i ≠ foldCands d (2 * n + 2) (cands i) (-1)
      · rw [if_pos hne]
        have hsize : i < d.size := by rw [hinv.size]; exact hi_n
        have hinv2 : ChkInv n (d.set! i (foldCands d (2 * n + 2) (cands i) (-1))) := by
          refine ⟨?_, ?_, ?_, ?_⟩
          · rw [Array.size_set!, hinv.size]
          · rw [getD_set!_ne d i 0 _ hroot]; exact hinv.root
          · intro j hj0 hjn
            by_cases hij : i = j
            · subst hij
              rw [getD_set!_self d i _ hsize]
              exact Or.inr ⟨hfv.1, hf_lt_i⟩
            · rw [getD_set!_ne d i j _ hij]
              exact hinv.lt j hj0 hjn
          · intro j hjn hja
            by_cases hij : i = j
            · subst hij
              rw [getD_set!_self d i _ hsize] at hja ⊢
              have htne : i ≠ (foldCands d (2 * n + 2) (cands i) (-1)).toNat := by
                omega
              rw [getD_set!_ne d i _ _ htne]
              exact hfv.2.2
            · rw [getD_set!_ne d i j _ hij] at hja ⊢
              by_cases hti : (d.getD j (-1)).toNat = i
              · rw [hti, getD_set!_self d i _ hsize]
                exact hfv.1
              · rw [getD_set!_ne d i _ _ (fun h => hti h.symm)]
                exact hinv.ptr j hjn hja
        refine ih (i + 1) _ true (by omega) hinv2 ?_
        intro j hj
        by_cases hij : i = j
        · subst hij
          rw [getD_set!_self d i _ hsize]
          exact hfv.1
        · rw [getD_set!_ne d i j _ hij]
          exact hpre j (by omega)
      · rw [if_neg hne]
        push_neg at hne
        rw [idomGet_natCast] at hne
        refine ih (i + 1) d ch (by omega) hinv ?_
        intro j hj
        by_cases hij : j = i
        · subst hij
          rw [hne]
          exact hfv.1
        · exact hpre j (by omega)

/-- After at least one pass of the `while (change)` loop, the invariant
holds and every slot is assigned. -/
theorem chkLoop_spec (cands : Nat → List Int) (n : Nat) (hn : 0 < n)
    (hb : ∀ i, 0 < i → i < n → ∀ c ∈ cands i, 0 ≤ c ∧ c < (n : Int))
    (hp : ∀ i, 0 < i → i < n → ∃ c ∈ cands i, c < (i : Int)) :
    ∀ (fuel : Nat) (d : Array Int), 0 < fuel → ChkInv n d →
      ChkInv n (chkLoop cands 0 n fuel d) ∧
      (∀ j, j < n → 0 ≤ (chkLoop cands 0 n fuel d).getD j (-1)) := by
  intro fuel
  induction fuel with
  | zero => intro d h; omega
  | succ fuel ih =>
    intro d _ hinv
    simp only [chkLoop]
    have hpass := chkPass_spec cands n hn hb hp n 0 d false (by omega) hinv
      (by intro j hj; omega)
    by_cases hch : (chkPass cands 0 n n 0 d false).2 = true
    · rw [if_pos hch]
      match fuel with
      | 0 => exact hpass
      | fuel' + 1 => exact ih _ (Nat.succ_pos _) hpass.1
    · rw [if_neg hch]
      exact hpass

/-- A pass writes `0` into every slot whose candidate list is exactly the
root index, and later steps keep it. -/
theorem chkPass_value_zero (cands : Nat → List Int) (n : Nat) :
    ∀ (k i : Nat) (d : Array Int) (ch : Bool) (t : Nat), i + k = n →
      d.getD 0 (-1) = 0 → d.size = n → 0 < t → i ≤ t → t < n →
      cands t = [0] →
      (chkPass cands 0 n k i d ch).1.getD t (-1) = 0 := by
  intro k
  induction k with
  | zero => intro i d ch t hik _ _ _ hit htn _; omega
  | succ k ih =>
    intro i d ch t hik hroot hsize ht hit htn hc
    simp only [chkPass]
    by_cases hiroot : i = 0
    · rw [if_pos hiroot]
      exact ih _ _ _ t (by omega) hroot hsize ht (by omega) htn hc
    · rw [if_neg hiroot]
      by_cases hit2 : i = t
      · subst hit2
        have hfold : foldCands d (2 * n + 2) (cands i) (-1) = 0 := by
          rw [hc]
          simp only [foldCands]
          have h0 : idomGet d (0 : Int) = 0 := by
            have := idomGet_natCast d 0
            simpa using this.trans hroot
          rw [if_neg (by rw [h0]; omega)]
          simp
        by_cases hne : idomGet d i ≠ foldCands d (2 * n + 2) (cands i) (-1)
        · rw [if_pos hne]
          rw [chkPass_frame cands n k (i + 1) _ true i (by omega),
            getD_set!_self d i _ (by omega), hfold]
        · rw [if_neg hne]
          push_neg at hne
          rw [chkPass_frame cands n k (i + 1) d ch i (by omega)]
          rw [idomGet_natCast] at hne
          rw [hne, hfold]
      · have hit3 : i + 1 ≤ t := by omega
        by_cases hne : idomGet d i ≠ foldCands d (2 * n + 2) (cands i) (-1)
        · rw [if_pos hne]
          refine ih _ _ _ t (by omega) ?_ ?_ ht hit3 htn hc
          · rw [getD_set!_ne d i 0 _ hiroot]; exact hroot
          · rw [Array.size_set!]; exact hsize
        · rw [if_neg hne]
          exact ih _ _ _ t (by omega) hroot hsize ht hit3 htn hc

/-- The loop result assigns the virtual-exit/root index `0` to every slot
whose candidate list is exactly `[0]`. -/
theorem chkLoop_value_zero (cands : Nat → List Int) (n : Nat) :
    ∀ (fuel : Nat) (d : Array Int) (t : Nat), 0 < fuel →
      d.getD 0 (-1) = 0 → d.size = n → 0 < t → t < n → cands t = [0] →
      (chkLoop cands 0 n fuel d).getD t (-1) = 0 := by
  intro fuel
  induction fuel with
  | zero => intro d t h; omega
  | succ fuel ih =>
    intro d t _ hroot hsize ht htn hc
    simp only [chkLoop]
    have hval := chkPass_value_zero cands n n 0 d false t (by omega) hroot
      hsize ht (by omega) htn hc
    by_cases hch : (chkPass cands 0 n n 0 d false).2 = true
    · rw [if_pos hch]
      match fuel with
      | 0 => exact hval
      | fuel' + 1 =>
        refine ih _ t (Nat.succ_pos _) ?_ ?_ ht htn hc
        · rw [chkPass_root cands n n 0 d false]; exact hroot
        · rw [chkPass_size cands n n 0 d false]; exact hsize
    · rw [if_neg hch]
      exact hval

/-! ## The computed arrays satisfy the invariants -/

/-- Reading a freshly created array. -/
theorem getD_mkArray (n : Nat) (v : Int) (j : Nat) :
    (Array.mkArray n v).getD j (-1) = if j < n then v else -1 := by
  by_cases h : j < n
  · simp [Array.getD, Array.size_mkArray, h, Array.getElem_mkArray]
  · simp [Array.getD, Array.size_mkArray, h]

/-- The initial array of `computeDominators` satisfies the invariant. -/
theorem domInit_inv (g : CFG) : ChkInv (domN g) (domInit g) := by
  have hn := domN_pos g
  have hroot := domRoot_eq_zero g
  have hsize : (Array.mkArray (domN g) (-1 : Int)).size = domN g :=
    Array.size_mkArray _ _
  refine ⟨?_, ?_, ?_, ?_⟩
  · rw [domInit, Array.size_set!, hsize]
  · rw [domInit, hroot, getD_set!_self _ _ _ (by rw [hsize]; exact hn)]
    simp
  · intro j hj0 hjn
    rw [domInit, hroot, getD_set!_ne _ _ _ _ (by omega), getD_mkArray]
    left
    rw [if_pos hjn]
  · intro j hjn hja
    rw [domInit, hroot] at hja ⊢
    by_cases hj0 : j = 0
    · subst hj0
      rw [getD_set!_self _ _ _ (by rw [hsize]; exact hn)] at hja ⊢
      simp [hn]
    · rw [getD_set!_ne _ _ _ _ (by omega), getD_mkArray, if_pos hjn] at hja
      omega

/-- The initial array of `computePostDominators` satisfies the
invariant. -/
theorem pdInit_inv (g : CFG) : ChkInv (pdN g) (pdInit g) := by
  have hn := pdN_pos g
  have hsize : (Array.mkArray (pdN g) (-1 : Int)).size = pdN g :=
    Array.size_mkArray _ _
  refine ⟨?_, ?_, ?_, ?_⟩
  · rw [pdInit, Array.size_set!, hsize]
  · rw [pdInit, getD_set!_self _ _ _ (by rw [hsize]; exact hn)]
  · intro j hj0 hjn
    rw [pdInit, getD_set!_ne _ _ _ _ (by omega), getD_mkArray]
    left
    rw [if_pos hjn]
  · intro j hjn hja
    rw [pdInit] at hja ⊢
    by_cases hj0 : j = 0
    · subst hj0
      rw [getD_set!_self _ _ _ (by rw [hsize]; exact hn)] at hja ⊢
      simp [hn]
    · rw [getD_set!_ne _ _ _ _ (by omega), getD_mkArray, if_pos hjn] at hja
      omega

/-- The computed immediate-dominator array: invariant plus totality. -/
theorem domIDoms_spec (g : CFG) (hwf : g.WF) :
    ChkInv (domN g) (domIDoms g) ∧
    (∀ j, j < domN g → 0 ≤ (domIDoms g).getD j (-1)) := by
  have h := chkLoop_spec (candsD g) (domN g) (domN_pos g)
    (fun i _ hi => candsD_bound g hwf i)
    (fun i h0 hi => candsD_parent g hwf i h0 hi)
    (domN g * domN g + 2) (domInit g) (by omega) (domInit_inv g)
  rw [domIDoms, domRoot_eq_zero]
  exact h

/-- The computed immediate-post-dominator array: invariant plus
totality. -/
theorem pdIPdoms_spec (g : CFG) (hwf : g.WF) :
    ChkInv (pdN g) (pdIPdoms g) ∧
    (∀ j, j < pdN g → 0 ≤ (pdIPdoms g).getD j (-1)) := by
  have h := chkLoop_spec (candsP g) (pdN g) (pdN_pos g)
    (fun i _ hi => candsP_bound g hwf i)
    (fun i h0 hi => candsP_parent g hwf i h0 hi)
    (pdN g * pdN g + 2) (pdInit g) (by omega) (pdInit_inv g)
  rw [pdIPdoms]
  exact h

/-! ## Characterizing the published maps -/

/-- Membership after folding an edge-adding step. -/
theorem mem_foldl_addEdge {β : Type} [DecidableEq β]
    (f : Finset β → Nat → Finset β) (P : Nat → β → Prop)
    (hf : ∀ m i e, e ∈ f m i ↔ e ∈ m ∨ P i e) :
    ∀ (l : List Nat) (m : Finset β) (e : β),
      e ∈ l.foldl f m ↔ e ∈ m ∨ ∃ i ∈ l, P i e := by
  intro l
  induction l with
  | nil => intro m e; simp
  | cons i l ih =>
    intro m e
    rw [List.foldl_cons, ih (f m i) e]
    constructor
    · rintro (h | ⟨i2, hi2, hp⟩)
      · rcases (hf m i e).mp h with h2 | h2
        · exact Or.inl h2
        · exact Or.inr ⟨i, List.mem_cons_self _ _, h2⟩
      · exact Or.inr ⟨i2, List.mem_cons_of_mem _ hi2, hp⟩
    · rintro (h | ⟨i2, hi2, hp⟩)
      · exact Or.inl ((hf m i e).mpr (Or.inl h))
      · rcases List.mem_cons.mp hi2 with h2 | h2
        · subst h2
          exact Or.inl ((hf m i2 e).mpr (Or.inr hp))
        · exact Or.inr ⟨i2, h2, hp⟩

/-- The edge added for index `i` by the dominator-map population loop. -/
def domEdgeP (g : CFG) (i : Nat) (e : Nat × Nat) : Prop :=
  (domIDoms g).getD i (-1) ≠ -1 ∧ (i : Int) ≠ (domIDoms g).getD i (-1) ∧
  e = ((domRPO g).getD ((domIDoms g).getD i (-1)).toNat 0,
       (domRPO g).getD i 0)

/-- The edge added for index `i` by the post-dominator-map population
loop. -/
def pdEdgeP (g : CFG) (i : Nat) (e : Option Nat × Option Nat) : Prop :=
  (pdIPdoms g).getD i (-1) ≠ 0 ∧ (pdIPdoms g).getD i (-1) ≠ -1 ∧
  (i : Int) ≠ (pdIPdoms g).getD i (-1) ∧
  e = ((pdRPO g).getD ((pdIPdoms g).getD i (-1)).toNat none,
       (pdRPO g).getD i none)

/-- Membership in the published dominator map. -/
theorem mem_populateDomMap (g : CFG) (e : Nat × Nat) :
    e ∈ populateDomMap g ∅ ↔ ∃ i ∈ List.range (domN g), domEdgeP g i e := by
  rw [populateDomMap]
  rw [mem_foldl_addEdge (addDomEdge (domRPO g) (domIDoms g)) (domEdgeP g) ?_]
  · simp
  · intro m i e2
    simp only [addDomEdge, domEdgeP]
    split_ifs with h
    · rw [Finset.mem_insert]
      constructor
      · rintro (h2 | h2)
        · exact Or.inr ⟨h.1, h.2, h2⟩
        · exact Or.inl h2
      · rintro (h2 | h2)
        · exact Or.inr h2
        · exact Or.inl h2.2.2
    · constructor
      · exact Or.inl
      · rintro (h2 | h2)
        · exact h2
        · exact absurd ⟨h2.1, h2.2.1⟩ h

/-- Membership in the published post-dominator map. -/
theorem mem_populatePdMap (g : CFG) (e : Option Nat × Option Nat) :
    e ∈ populatePdMap g ∅ ↔
      ∃ i ∈ (List.range (pdN g)).drop 1, pdEdgeP g i e := by
  rw [populatePdMap]
  rw [mem_foldl_addEdge (addPdEdge (pdRPO g) (pdIPdoms g)) (pdEdgeP g) ?_]
  · simp
  · intro m i e2
    simp only [addPdEdge, pdEdgeP]
    split_ifs with h
    · rw [Finset.mem_insert]
      constructor
      · rintro (h2 | h2)
        · exact Or.inr ⟨h.1, h.2.1, h.2.2, h2⟩
        · exact Or.inl h2
      · rintro (h2 | h2)
        · exact Or.inr h2
        · exact Or.inl h2.2.2.2
    · constructor
      · exact Or.inl
      · rintro (h2 | h2)
        · exact h2
        · exact absurd ⟨h2.1, h2.2.1, h2.2.2.1⟩ h

/-- Membership in the tail of a range. -/
theorem mem_range_drop_one (n i : Nat) :
    i ∈ (List.range n).drop 1 ↔ 1 ≤ i ∧ i < n := by
  cases n with
  | zero => simp
  | succ m =>
    rw [List.range_succ_eq_map]
    simp only [List.drop_succ_cons, List.drop_zero, List.mem_map,
      List.mem_range]
    constructor
    · rintro ⟨j, hj, rfl⟩; omega
    · rintro ⟨h1, h2⟩; exact ⟨i - 1, by omega, by omega⟩

/-- Positions past the virtual exit in the post-dominator reverse
postorder hold real blocks. -/
theorem pdRPO_getD_pos (g : CFG) (j : Nat) (h1 : 1 ≤ j) (hj : j < pdN g) :
    ∃ b, (pdRPO g).getD j none = some b ∧ b ∈ (pdDFS g).2 := by
  obtain ⟨t, rfl⟩ : ∃ t, j = t + 1 := ⟨j - 1, by omega⟩
  have hlen : t + 1 < (pdRPO g).length := hj
  have ht : t < ((pdDFS g).2.reverse.map some).length := by
    rw [pdRPO] at hlen
    simpa using Nat.lt_of_succ_lt_succ hlen
  have htr : t < (pdDFS g).2.reverse.length := by simpa using ht
  refine ⟨((pdDFS g).2.reverse)[t], ?_, ?_⟩
  · rw [List.getD_eq_getElem _ _ hlen]
    simp only [pdRPO, List.getElem_cons_succ, List.getElem_map]
  · rw [← List.mem_reverse]
    exact List.getElem_mem _

/-- Every edge of the published post-dominator map joins two real blocks:
the virtual exit appears neither as a key nor inside a child set. -/
theorem pdMap_real_blocks (g : CFG) (hwf : g.WF) :
    ∀ e ∈ populatePdMap g ∅, e.1 ≠ none ∧ e.2 ≠ none := by
  intro e he
  obtain ⟨i, hi, hP⟩ := (mem_populatePdMap g e).mp he
  obtain ⟨hinv, _⟩ := pdIPdoms_spec g hwf
  obtain ⟨hi1, hin⟩ := (mem_range_drop_one _ i).mp hi
  obtain ⟨hv0, hvm1, hvne, hedge⟩ := hP
  have hva : 0 ≤ (pdIPdoms g).getD i (-1) := hinv.assigned i hin hvm1
  have hvlt : (pdIPdoms g).getD i (-1) < (pdN g : Int) :=
    hinv.val_lt (pdN_pos g) i hin hva
  obtain ⟨b1, hb1, _⟩ := pdRPO_getD_pos g ((pdIPdoms g).getD i (-1)).toNat
    (by omega) (by omega)
  obtain ⟨b2, hb2, _⟩ := pdRPO_getD_pos g i hi1 hin
  rw [hedge]
  
  constructor
  · rw [hb1]; exact Option.some_ne_none b1
  · rw [hb2]; exact Option.some_ne_none b2

/-- The reverse-postorder index `bbToIdx[bb]` of a real block in
`computePostDominators`. -/
def ipdomIdx (g : CFG) (b : Nat) : Nat := (pdRPO g).indexOf (some b)

/-- The computed immediate-post-dominator slot of a real block; value `0`
denotes the virtual exit, `-1` an unassigned slot. -/
def ipdomAt (g : CFG) (b : Nat) : Int :=
  (pdIPdoms g).getD (ipdomIdx g b) (-1)

/-- Exit blocks sit at a positive position of the post-dominator reverse
postorder, and their candidate list is exactly the virtual exit. -/
theorem exit_idx_spec (g : CFG) (hwf : g.WF) (E : Nat) (hE : E ∈ g.blocks)
    (hs : g.succ E = []) :
    0 < ipdomIdx g E ∧ ipdomIdx g E < pdN g ∧
    candsP g (ipdomIdx g E) = [0] := by
  have hexit : E ∈ exitBlocks g := by
    rw [exitBlocks]
    exact List.mem_filter.mpr ⟨hE, decide_eq_true hs⟩
  have hvis : E ∈ (pdDFS g).1 := by
    rw [pdDFS]
    exact dfs_todo_visited g.pred g.blocks.length (exitBlocks g) [] [] E hexit
  have hpost : E ∈ (pdDFS g).2 := (pdReach0_eq_rpo0 g hwf E).mp hvis
  have hmem : some E ∈ pdRPO g := by
    rw [pdRPO]
    exact List.mem_cons_of_mem _
      (List.mem_map.mpr ⟨E, List.mem_reverse.mpr hpost, rfl⟩)
  have hidx_lt : ipdomIdx g E < pdN g := by
    rw [ipdomIdx, indexOf_option]
    exact List.indexOf_lt_length.mpr hmem
  have hgei : @List.indexOf _ instBEqOfDecidableEq (some E) (pdRPO g) <
      (pdRPO g).length := by
    rw [← indexOf_option]; exact hidx_lt
  have hget : (pdRPO g).getD (ipdomIdx g E) none = some E := by
    rw [List.getD_eq_getElem _ _ hidx_lt]
    simp only [ipdomIdx, indexOf_option]
    exact List.getElem_indexOf hgei
  have hidx_pos : 0 < ipdomIdx g E := by
    rcases Nat.eq_zero_or_pos (ipdomIdx g E) with h | h
    · rw [h] at hget
      rw [List.getD_eq_getElem _ _ (by rw [h] at hidx_lt; exact hidx_lt)] at hget
      rw [show (pdRPO g)[0] = none from by simp [pdRPO]] at hget
      cases hget
    · exact h
  refine ⟨hidx_pos, hidx_lt, ?_⟩
  have hsuccs : pdSuccs g (ipdomIdx g E) = [none] := by
    rw [pdSuccs, hget]
    simp [hs]
  rw [candsP, hsuccs]
  have hreach : (none : Option Nat) ∈ pdReach g := by
    rw [pdReach]; exact List.mem_cons_self _ _
  rw [List.filter_cons]
  rw [if_pos (decide_eq_true hreach)]
  rw [List.filter_nil, List.map_cons, List.map_nil]
  have hz : (pdRPO g).indexOf none = 0 := by
    rw [indexOf_option, pdRPO, List.indexOf_cons_self]
  rw [hz]
  rfl

/-- The diamond CFG is well formed. -/
theorem diamond_wf : diamond.WF := by
  refine ⟨?_, ?_, ?_, ?_, ?_⟩ <;> decide

/-- The two-exit CFG is well formed. -/
theorem twoExit_wf : twoExit.WF := by
  refine ⟨?_, ?_, ?_, ?_, ?_⟩ <;> decide

/-- C3: in every function, two distinct exit blocks both get the virtual
exit (index `0` of the reverse postorder) as their computed immediate
post-dominator, and the virtual exit never receives a parent entry in the
published post-dominator map (it is the root). -/
theorem claim_C3_two_exit_blocks (g : CFG) (hwf : g.WF) (E1 E2 : Nat)
    (hne : E1 ≠ E2) (h1 : E1 ∈ g.blocks) (h2 : E2 ∈ g.blocks)
    (hs1 : g.succ E1 = []) (hs2 : g.succ E2 = []) :
    ipdomAt g E1 = 0 ∧ ipdomAt g E2 = 0 ∧
    ¬ inMap (analyze g ⟨∅, ∅⟩).pdMap none := by
  have hroot : (pdInit g).getD 0 (-1) = 0 := (pdInit_inv g).root
  have hsize : (pdInit g).size = pdN g := (pdInit_inv g).size
  have hval : ∀ E, E ∈ g.blocks → g.succ E = [] → ipdomAt g E = 0 := by
    intro E hE hs
    obtain ⟨hp, hlt, hc⟩ := exit_idx_spec g hwf E hE hs
    rw [ipdomAt, pdIPdoms]
    exact chkLoop_value_zero (candsP g) (pdN g) (pdN g * pdN g + 2)
      (pdInit g) (ipdomIdx g E) (by omega) hroot hsize hp hlt hc
  refine ⟨hval E1 h1 hs1, hval E2 h2 hs2, ?_⟩
  rintro ⟨e, he, hor⟩
  have hreal := pdMap_real_blocks g hwf e he
  rcases hor with h | h
  · exact hreal.1 h
  · exact hreal.2 h

/-- Witness for C3: the two-exit CFG, with exits `1` and `2`. -/
theorem claim_C3_two_exit_blocks_witness :
    ipdomAt twoExit 1 = 0 ∧ ipdomAt twoExit 2 = 0 ∧
    ¬ inMap (analyze twoExit ⟨∅, ∅⟩).pdMap none :=
  claim_C3_two_exit_blocks twoExit twoExit_wf 1 2 (by decide) (by decide)
    (by decide) (by decide) (by decide)

/-- C10: the virtual exit sentinel never appears in the published
post-dominator map, neither as a key nor as a member of any child set. -/
theorem claim_C10_no_virtual_exit (g : CFG) (hwf : g.WF) :
    ¬ inMap (analyze g ⟨∅, ∅⟩).pdMap none := by
  rintro ⟨e, he, hor⟩
  have hreal := pdMap_real_blocks g hwf e he
  rcases hor with h | h
  · exact hreal.1 h
  · exact hreal.2 h

/-- Witness for C10 at the diamond CFG. -/
theorem claim_C10_no_virtual_exit_witness :
    ¬ inMap (analyze diamond ⟨∅, ∅⟩).pdMap none :=
  claim_C10_no_virtual_exit diamond diamond_wf

/-- Positions of the dominator reverse postorder hold visited blocks. -/
theorem domRPO_getD_mem (g : CFG) (i : Nat) (hi : i < domN g) :
    (domRPO g).getD i 0 ∈ (domDFS g).2 := by
  rw [List.getD_eq_getElem _ _ hi]
  rw [← List.mem_reverse]
  exact List.getElem_mem _

/-- Every block occurring in the published dominator map, as key or child,
was visited by the forward traversal. -/
theorem domMap_in_reach (g : CFG) (hwf : g.WF) :
    ∀ e ∈ populateDomMap g ∅, e.1 ∈ domReach g ∧ e.2 ∈ domReach g := by
  intro e he
  obtain ⟨i, hi, hv1, hv2, hedge⟩ := (mem_populateDomMap g e).mp he
  rw [List.mem_range] at hi
  obtain ⟨hinv, _⟩ := domIDoms_spec g hwf
  have hva : 0 ≤ (domIDoms g).getD i (-1) := hinv.assigned i hi hv1
  have hvlt : (domIDoms g).getD i (-1) < (domN g : Int) :=
    hinv.val_lt (domN_pos g) i hi hva
  rw [hedge]
  constructor
  · exact (domReach_eq_rpo g hwf _).mpr (domRPO_getD_mem g _ (by omega))
  · exact (domReach_eq_rpo g hwf _).mpr (domRPO_getD_mem g _ hi)

/-- Backward reachability flips to forward reachability under the
predecessor/successor duality. -/
theorem reach_pred_flip (g : CFG) (hwf : g.WF) (a c : Nat)
    (h : ReachRel g.pred a c) (ha : a ∈ g.blocks) :
    c ∈ g.blocks ∧ ReachRel g.succ c a := by
  induction h with
  | refl => exact ⟨ha, Relation.ReflTransGen.refl⟩
  | tail hr hstep ih =>
    rename_i b c2
    have hc2 : c2 ∈ g.blocks := hwf.pred_mem b ih.1 c2 hstep
    refine ⟨hc2, Relation.ReflTransGen.head ?_ ih.2⟩
    exact (hwf.dual c2 hc2 b ih.1).mp hstep

/-- Every real block occurring in the published post-dominator map, as key
or child, was visited by the backward traversal. -/
theorem pdMap_in_reach (g : CFG) (hwf : g.WF) :
    ∀ e ∈ populatePdMap g ∅, ∀ x : Nat,
      (e.1 = some x ∨ e.2 = some x) → x ∈ (pdDFS g).1 := by
  intro e he x hor
  obtain ⟨i, hi, hv0, hv1, hvne, hedge⟩ := (mem_populatePdMap g e).mp he
  obtain ⟨hi1, hin⟩ := (mem_range_drop_one _ i).mp hi
  obtain ⟨hinv, _⟩ := pdIPdoms_spec g hwf
  have hva : 0 ≤ (pdIPdoms g).getD i (-1) := hinv.assigned i hin hv1
  have hvlt : (pdIPdoms g).getD i (-1) < (pdN g : Int) :=
    hinv.val_lt (pdN_pos g) i hin hva
  obtain ⟨b1, hb1, hb1m⟩ := pdRPO_getD_pos g ((pdIPdoms g).getD i (-1)).toNat
    (by omega) (by omega)
  obtain ⟨b2, hb2, hb2m⟩ := pdRPO_getD_pos g i hi1 hin
  rw [hedge] at hor
  rcases hor with h | h
  · simp only [hb1] at h
    rcases Option.some_inj.mp h.symm with rfl
    exact (pdReach0_eq_rpo0 g hwf x).mpr hb1m
  · simp only [hb2] at h
    rcases Option.some_inj.mp h.symm with rfl
    exact (pdReach0_eq_rpo0 g hwf x).mpr hb2m

/-- C6: a block with no path from the entry block appears nowhere in the
published dominator map, and a block from which no path reaches any exit
block appears nowhere in the published post-dominator map. -/
theorem claim_C6_unreachable_excluded (g : CFG) (hwf : g.WF) (b : Nat) :
    (¬ ReachRel g.succ g.entry b → ¬ inMap (analyze g ⟨∅, ∅⟩).domMap b) ∧
    ((∀ x, x ∈ g.blocks → g.succ x = [] → ¬ ReachRel g.succ b x) →
      ¬ inMap (analyze g ⟨∅, ∅⟩).pdMap (some b)) := by
  constructor
  · rintro hun ⟨e, he, hor⟩
    have hr := domMap_in_reach g hwf e he
    rcases hor with h | h
    · exact hun (domReach_sound g b (h ▸ hr.1))
    · exact hun (domReach_sound g b (h ▸ hr.2))
  · rintro hun ⟨e, he, hor⟩
    have hvis : b ∈ (pdDFS g).1 := by
      rcases hor with h | h
      · exact pdMap_in_reach g hwf e he b (Or.inl h)
      · exact pdMap_in_reach g hwf e he b (Or.inr h)
    obtain ⟨r, hr, hrb⟩ := pdReach_sound g b hvis
    have hrblocks : r ∈ g.blocks := List.mem_of_mem_filter hr
    have hrexit : g.succ r = [] :=
      of_decide_eq_true (List.mem_filter.mp hr).2
    obtain ⟨_, hflip⟩ := reach_pred_flip g hwf r b hrb hrblocks
    exact hun r hrblocks hrexit hflip

/-- Witness for C6: block `4` of the two-exit CFG (not a block at all, so
unreachable in both directions) is absent from both maps; hypotheses are
discharged concretely. -/
theorem claim_C6_unreachable_excluded_witness :
    ¬ inMap (analyze twoExit ⟨∅, ∅⟩).domMap 4 ∧
    ¬ inMap (analyze twoExit ⟨∅, ∅⟩).pdMap (some 4) := by
  have h := claim_C6_unreachable_excluded twoExit twoExit_wf 4
  constructor
  · refine h.1 ?_
    intro hreach
    have := reach_mem twoExit.succ twoExit.blocks twoExit_wf.succ_mem
      twoExit.entry 4 hreach twoExit_wf.entry_mem
    simp [twoExit] at this
  · refine h.2 ?_
    intro x hx hsx hreach
    rcases hreach.cases_head with h4 | ⟨c, hc, _⟩
    · rw [← h4] at hx
      simp [twoExit] at hx
    · simp [twoExit, stepRel] at hc

/-! ## Counting machinery for the tree-shape claim -/

section DFSLemmas5

variable {α : Type} [DecidableEq α]

/-- A traversal step keeps the visited list duplicate free. -/
theorem dfsStep_vis_nodup (child : α → List α → List α → List α × List α)
    (hc : ∀ s v p, v.Nodup → (child s v p).1.Nodup) :
    ∀ todo vis post, vis.Nodup → (dfsStep child todo vis post).1.Nodup := by
  intro todo
  induction todo with
  | nil => intro vis post h; exact h
  | cons s rest ih =>
    intro vis post h
    simp only [dfsStep]
    by_cases hs : s ∈ vis
    · rw [if_pos hs]; exact ih vis post h
    · rw [if_neg hs]
      exact ih _ _ (hc s (s :: vis) post (List.nodup_cons.mpr ⟨hs, h⟩))

/-- The traversal keeps the visited list duplicate free. -/
theorem dfs_vis_nodup (adj : α → List α) :
    ∀ (fuel : Nat) (todo vis post : List α), vis.Nodup →
      (dfs adj fuel todo vis post).1.Nodup := by
  intro fuel
  induction fuel with
  | zero => intro todo vis post h; exact h
  | succ fuel ih =>
    intro todo vis post h
    simp only [dfs]
    exact dfsStep_vis_nodup _ (fun s v p => ih (adj s) v p) todo vis post h

end DFSLemmas5

/-- Duplicate-free lists with the same elements have the same length. -/
theorem length_eq_of_nodup_iff {α : Type} [DecidableEq α]
    (l1 l2 : List α) (h1 : l1.Nodup) (h2 : l2.Nodup)
    (h : ∀ x, x ∈ l1 ↔ x ∈ l2) : l1.length = l2.length := by
  rw [← List.toFinset_card_of_nodup h1, ← List.toFinset_card_of_nodup h2]
  congr 1
  ext x
  rw [List.mem_toFinset, List.mem_toFinset]
  exact h x

/-- The dominator traversal visits exactly the blocks of its postorder. -/
theorem domReach_length (g : CFG) (hwf : g.WF) :
    (domReach g).length = domN g := by
  have h1 : (domReach g).length = (domDFS g).2.length := by
    refine length_eq_of_nodup_iff _ _ ?_ (domPost_nodup g) ?_
    · exact dfs_vis_nodup g.succ (g.blocks.length + 1) [g.entry] [] []
        List.nodup_nil
    · exact fun x => domReach_eq_rpo g hwf x
  rw [h1, domN, domRPO, List.length_reverse]

/-- The post-dominator traversal visits exactly the blocks of its
postorder. -/
theorem pdReach0_length (g : CFG) (hwf : g.WF) :
    (pdDFS g).1.length + 1 = pdN g := by
  have h1 : (pdDFS g).1.length = (pdDFS g).2.length := by
    refine length_eq_of_nodup_iff _ _ ?_ (pdPost_nodup g) ?_
    · exact dfs_vis_nodup g.pred (g.blocks.length + 1) (exitBlocks g) [] []
        List.nodup_nil
    · exact fun x => pdReach0_eq_rpo0 g hwf x
  rw [h1, pdN, pdRPO]
  simp

/-- The edge inserted for reverse-postorder index `i` by the dominator-map
population loop. -/
def domEdge (g : CFG) (i : Nat) : Nat × Nat :=
  ((domRPO g).getD ((domIDoms g).getD i (-1)).toNat 0, (domRPO g).getD i 0)

/-- The published dominator map is the image of the non-root indices under
the edge map. -/
theorem populateDomMap_eq_image (g : CFG) (hwf : g.WF) :
    populateDomMap g ∅ =
      ((Finset.range (domN g)).filter (fun i => 1 ≤ i)).image (domEdge g) := by
  obtain ⟨hinv, hall⟩ := domIDoms_spec g hwf
  ext e
  rw [mem_populateDomMap, Finset.mem_image]
  constructor
  · rintro ⟨i, hi, hv1, hv2, hedge⟩
    rw [List.mem_range] at hi
    refine ⟨i, Finset.mem_filter.mpr ⟨Finset.mem_range.mpr hi, ?_⟩, hedge.symm⟩
    by_contra h0
    have : i = 0 := by omega
    subst this
    exact hv2 (by rw [hinv.root]; simp)
  · rintro ⟨i, hi, hedge⟩
    obtain ⟨hir, hi1⟩ := Finset.mem_filter.mp hi
    rw [Finset.mem_range] at hir
    have hva : 0 ≤ (domIDoms g).getD i (-1) := hall i hir
    have hvlt : (domIDoms g).getD i (-1) < (i : Int) := by
      rcases hinv.lt i (by omega) hir with h | h
      · omega
      · exact h.2
    exact ⟨i, List.mem_range.mpr hir, by omega, by omega, hedge.symm⟩

/-- The second component of the dominator edge map is injective on
in-range indices. -/
theorem domEdge_snd_inj (g : CFG) (i j : Nat) (hi : i < domN g)
    (hj : j < domN g) (h : (domRPO g).getD i 0 = (domRPO g).getD j 0) :
    i = j := by
  rw [List.getD_eq_getElem _ _ hi, List.getD_eq_getElem _ _ hj] at h
  exact (List.Nodup.getElem_inj_iff (domRPO_nodup g)).mp h

/-- The published dominator map holds exactly `|reachable| - 1` edges. -/
theorem domMap_card (g : CFG) (hwf : g.WF) :
    (populateDomMap g ∅).card + 1 = (domReach g).length := by
  rw [populateDomMap_eq_image g hwf]
  rw [Finset.card_image_of_injOn ?_]
  · have hcardf :
        ((Finset.range (domN g)).filter (fun i => 1 ≤ i)).card + 1 = domN g := by
      have he : (Finset.range (domN g)).filter (fun i => 1 ≤ i) =
          (Finset.range (domN g)).erase 0 := by
        ext i
        rw [Finset.mem_filter, Finset.mem_erase]
        simp only [Finset.mem_range]
        omega
      rw [he, Finset.card_erase_of_mem
        (Finset.mem_range.mpr (domN_pos g)), Finset.card_range]
      have := domN_pos g
      omega
    rw [hcardf, domReach_length g hwf]
  · intro i hi j hj hij
    obtain ⟨hir, _⟩ := Finset.mem_filter.mp hi
    obtain ⟨hjr, _⟩ := Finset.mem_filter.mp hj
    have h2 := congrArg Prod.snd hij
    exact domEdge_snd_inj g i j (Finset.mem_range.mp hir)
      (Finset.mem_range.mp hjr) h2

/-- Ranked edge sets induce no cycle. -/
theorem no_cycle_of_rank {α : Type} (E : Finset (α × α)) [DecidableEq α]
    (f : α → Nat) (h : ∀ e ∈ E, f e.1 < f e.2) :
    ∀ x, ¬ Relation.TransGen (fun a b => (a, b) ∈ E) x x := by
  have mono : ∀ a b, Relation.TransGen (fun a b => (a, b) ∈ E) a b →
      f a < f b := by
    intro a b hab
    induction hab with
    | single hs => exact h _ hs
    | tail _ hs ih => exact lt_trans ih (h _ hs)
  intro x hx
  exact lt_irrefl _ (mono x x hx)

/-- Every published dominator edge strictly increases the
reverse-postorder position. -/
theorem domMap_edge_rank (g : CFG) (hwf : g.WF) :
    ∀ e ∈ populateDomMap g ∅,
      (domRPO g).indexOf e.1 < (domRPO g).indexOf e.2 := by
  intro e he
  obtain ⟨i, hi, hv1, hv2, hedge⟩ := (mem_populateDomMap g e).mp he
  rw [List.mem_range] at hi
  obtain ⟨hinv, _⟩ := domIDoms_spec g hwf
  have hva : 0 ≤ (domIDoms g).getD i (-1) := hinv.assigned i hi hv1
  have hi0 : 0 < i := by
    by_contra h0
    have : i = 0 := by omega
    subst this
    exact hv2 (by rw [hinv.root]; simp)
  have hvlt : (domIDoms g).getD i (-1) < (i : Int) := by
    rcases hinv.lt i hi0 hi with h | h
    · omega
    · exact h.2
  have htn : ((domIDoms g).getD i (-1)).toNat < domN g := by omega
  rw [hedge]
  simp only
  rw [List.getD_eq_getElem _ _ htn, List.getD_eq_getElem _ _ hi,
    List.indexOf_getElem (domRPO_nodup g) _ htn,
    List.indexOf_getElem (domRPO_nodup g) _ hi]
  omega

/-- The parent set of a reachable non-entry block in the published
dominator map is the single computed immediate dominator. -/
theorem domMap_parents (g : CFG) (hwf : g.WF) (b : Nat)
    (hb : b ∈ domReach g) (hbe : b ≠ g.entry) :
    parentsOf (populateDomMap g ∅) b =
      {(domRPO g).getD
        ((domIDoms g).getD ((domRPO g).indexOf b) (-1)).toNat 0} := by
  obtain ⟨hinv, hall⟩ := domIDoms_spec g hwf
  have hbrpo : b ∈ domRPO g :=
    List.mem_reverse.mpr ((domReach_eq_rpo g hwf b).mp hb)
  have hib : (domRPO g).indexOf b < domN g := List.indexOf_lt_length.mpr hbrpo
  have hib0 : 0 < (domRPO g).indexOf b := by
    rcases Nat.eq_zero_or_pos ((domRPO g).indexOf b) with h | h
    · exfalso
      obtain ⟨t, ht⟩ := domRPO_head g
      have hgb := List.getElem_indexOf hib
      simp only [h] at hgb
      have h0lt : 0 < (domRPO g).length := domN_pos g
      rw [show (domRPO g)[0] = g.entry from by simp [ht]] at hgb
      exact hbe hgb.symm
    · exact h
  ext x
  rw [parentsOf, Finset.mem_image, Finset.mem_singleton]
  constructor
  · rintro ⟨e, hef, rfl⟩
    obtain ⟨he, he2⟩ := Finset.mem_filter.mp hef
    obtain ⟨i, hi, hv1, hv2, hedge⟩ := (mem_populateDomMap g e).mp he
    rw [List.mem_range] at hi
    have hsnd : (domRPO g).getD i 0 = b := by
      rw [hedge] at he2
      exact he2
    have hieq : i = (domRPO g).indexOf b := by
      rw [List.getD_eq_getElem _ _ hi] at hsnd
      rw [← hsnd, List.indexOf_getElem (domRPO_nodup g) _ hi]
    rw [hedge]
    simp only
    rw [hieq]
  · rintro rfl
    set ib := (domRPO g).indexOf b with hibdef
    have hva : 0 ≤ (domIDoms g).getD ib (-1) := hall ib hib
    have hvlt : (domIDoms g).getD ib (-1) < (ib : Int) := by
      rcases hinv.lt ib hib0 hib with h | h
      · omega
      · exact h.2
    refine ⟨((domRPO g).getD ((domIDoms g).getD ib (-1)).toNat 0,
      (domRPO g).getD ib 0), ?_, rfl⟩
    refine Finset.mem_filter.mpr ⟨?_, ?_⟩
    · refine (mem_populateDomMap g _).mpr
        ⟨ib, List.mem_range.mpr hib, by omega, by omega, rfl⟩
    · simp only
      rw [List.getD_eq_getElem _ _ hib]
      exact List.getElem_indexOf hib

/-- The entry block has no parent edge in the published dominator map. -/
theorem domMap_entry_no_parent (g : CFG) (hwf : g.WF) :
    parentsOf (populateDomMap g ∅) g.entry = ∅ := by
  rw [Finset.eq_empty_iff_forall_not_mem]
  intro x hx
  rw [parentsOf, Finset.mem_image] at hx
  obtain ⟨e, hef, _⟩ := hx
  obtain ⟨he, he2⟩ := Finset.mem_filter.mp hef
  obtain ⟨i, hi, hv1, hv2, hedge⟩ := (mem_populateDomMap g e).mp he
  rw [List.mem_range] at hi
  obtain ⟨hinv, _⟩ := domIDoms_spec g hwf
  have hi0 : i ≠ 0 := by
    intro h0
    subst h0
    exact hv2 (by rw [hinv.root]; simp)
  have hsnd : (domRPO g).getD i 0 = g.entry := by
    rw [hedge] at he2
    exact he2
  obtain ⟨t, ht⟩ := domRPO_head g
  rw [List.getD_eq_getElem _ _ hi] at hsnd
  have h0lt : 0 < (domRPO g).length := domN_pos g
  have hrpo0 : (domRPO g)[0] = g.entry := by simp [ht]
  have := nodup_getElem_inj (domRPO_nodup g) i 0 hi h0lt
    (by rw [hrpo0, hsnd])
  exact hi0 this

/-- The edge inserted for reverse-postorder index `i` by the
post-dominator-map population loop. -/
def pdEdge (g : CFG) (i : Nat) : Option Nat × Option Nat :=
  ((pdRPO g).getD ((pdIPdoms g).getD i (-1)).toNat none,
   (pdRPO g).getD i none)

/-- The number of reverse-postorder positions whose computed immediate
post-dominator is the virtual exit: their parent edges are dropped from
the published map. -/
def pdVexitCount (g : CFG) : Nat :=
  ((Finset.range (pdN g)).filter
    (fun i => 1 ≤ i ∧ (pdIPdoms g).getD i (-1) = 0)).card

/-- The published post-dominator map is the image, under the edge map, of
the non-root indices whose slot is not the virtual exit. -/
theorem populatePdMap_eq_image (g : CFG) (hwf : g.WF) :
    populatePdMap g ∅ =
      ((Finset.range (pdN g)).filter
        (fun i => 1 ≤ i ∧ (pdIPdoms g).getD i (-1) ≠ 0)).image (pdEdge g) := by
  obtain ⟨hinv, hall⟩ := pdIPdoms_spec g hwf
  ext e
  rw [mem_populatePdMap, Finset.mem_image]
  constructor
  · rintro ⟨i, hi, hv0, hv1, hvne, hedge⟩
    obtain ⟨hi1, hin⟩ := (mem_range_drop_one _ i).mp hi
    exact ⟨i, Finset.mem_filter.mpr ⟨Finset.mem_range.mpr hin, hi1, hv0⟩,
      hedge.symm⟩
  · rintro ⟨i, hi, hedge⟩
    obtain ⟨hir, hi1, hi0⟩ := Finset.mem_filter.mp hi
    rw [Finset.mem_range] at hir
    have hva : 0 ≤ (pdIPdoms g).getD i (-1) := hall i hir
    have hvlt : (pdIPdoms g).getD i (-1) < (i : Int) := by
      rcases hinv.lt i (by omega) hir with h | h
      · omega
      · exact h.2
    exact ⟨i, (mem_range_drop_one _ i).mpr ⟨hi1, hir⟩, hi0, by omega,
      by omega, hedge.symm⟩

/-- In-range positions of the post-dominator reverse postorder are
determined by their block. -/
theorem pdEdge_snd_inj (g : CFG) (i j : Nat) (hi : i < pdN g)
    (hj : j < pdN g)
    (h : (pdRPO g).getD i none = (pdRPO g).getD j none) : i = j := by
  rw [List.getD_eq_getElem _ _ hi, List.getD_eq_getElem _ _ hj] at h
  exact (List.Nodup.getElem_inj_iff (pdRPO_nodup g)).mp h

/-- Edge count of the published post-dominator map: one edge per backward
reachable block, except those whose immediate post-dominator is the
virtual exit. -/
theorem pdMap_card (g : CFG) (hwf : g.WF) :
    (populatePdMap g ∅).card + pdVexitCount g = (pdDFS g).1.length := by
  rw [populatePdMap_eq_image g hwf]
  rw [Finset.card_image_of_injOn ?_]
  · have hsplit :
        ((Finset.range (pdN g)).filter
          (fun i => 1 ≤ i ∧ (pdIPdoms g).getD i (-1) ≠ 0)).card +
        pdVexitCount g =
        ((Finset.range (pdN g)).filter (fun i => 1 ≤ i)).card := by
      rw [pdVexitCount]
      have h1 : (Finset.range (pdN g)).filter
          (fun i => 1 ≤ i ∧ (pdIPdoms g).getD i (-1) ≠ 0) =
          ((Finset.range (pdN g)).filter (fun i => 1 ≤ i)).filter
            (fun i => ¬ (pdIPdoms g).getD i (-1) = 0) := by
        rw [Finset.filter_filter]
      have h2 : (Finset.range (pdN g)).filter
          (fun i => 1 ≤ i ∧ (pdIPdoms g).getD i (-1) = 0) =
          ((Finset.range (pdN g)).filter (fun i => 1 ≤ i)).filter
            (fun i => (pdIPdoms g).getD i (-1) = 0) := by
        rw [Finset.filter_filter]
      rw [h1, h2, Nat.add_comm]
      exact Finset.filter_card_add_filter_neg_card_eq_card _
    rw [hsplit]
    have he : (Finset.range (pdN g)).filter (fun i => 1 ≤ i) =
        (Finset.range (pdN g)).erase 0 := by
      ext i
      rw [Finset.mem_filter, Finset.mem_erase]
      simp only [Finset.mem_range]
      omega
    rw [he, Finset.card_erase_of_mem (Finset.mem_range.mpr (pdN_pos g)),
      Finset.card_range]
    have h3 := pdReach0_length g hwf
    omega
  · intro i hi j hj hij
    obtain ⟨hir, _⟩ := Finset.mem_filter.mp hi
    obtain ⟨hjr, _⟩ := Finset.mem_filter.mp hj
    have h2 := congrArg Prod.snd hij
    exact pdEdge_snd_inj g i j (Finset.mem_range.mp hir)
      (Finset.mem_range.mp hjr) h2

/-- Every published post-dominator edge strictly increases the
reverse-postorder position. -/
theorem pdMap_edge_rank (g : CFG) (hwf : g.WF) :
    ∀ e ∈ populatePdMap g ∅,
      (pdRPO g).indexOf e.1 < (pdRPO g).indexOf e.2 := by
  intro e he
  obtain ⟨i, hi, hv0, hv1, hvne, hedge⟩ := (mem_populatePdMap g e).mp he
  obtain ⟨hi1, hin⟩ := (mem_range_drop_one _ i).mp hi
  obtain ⟨hinv, _⟩ := pdIPdoms_spec g hwf
  have hva : 0 ≤ (pdIPdoms g).getD i (-1) := hinv.assigned i hin hv1
  have hvlt : (pdIPdoms g).getD i (-1) < (i : Int) := by
    rcases hinv.lt i (by omega) hin with h | h
    · omega
    · exact h.2
  have htn : ((pdIPdoms g).getD i (-1)).toNat < pdN g := by omega
  rw [hedge]
  simp only
  rw [indexOf_option, indexOf_option,
    List.getD_eq_getElem _ _ htn, List.getD_eq_getElem _ _ hin,
    List.indexOf_getElem (pdRPO_nodup g) _ htn,
    List.indexOf_getElem (pdRPO_nodup g) _ hin]
  omega

/-- Parent edges of a backward reachable block in the published
post-dominator map: exactly one when its computed immediate post-dominator
is a real block, none when it is the virtual exit. -/
theorem pdMap_parents (g : CFG) (hwf : g.WF) (b : Nat)
    (hb : b ∈ (pdDFS g).1) :
    ((pdIPdoms g).getD (ipdomIdx g b) (-1) ≠ 0 →
      parentsOf (populatePdMap g ∅) (some b) =
        {(pdRPO g).getD
          ((pdIPdoms g).getD (ipdomIdx g b) (-1)).toNat none}) ∧
    ((pdIPdoms g).getD (ipdomIdx g b) (-1) = 0 →
      parentsOf (populatePdMap g ∅) (some b) = ∅) := by
  obtain ⟨hinv, hall⟩ := pdIPdoms_spec g hwf
  have hmem : some b ∈ pdRPO g := by
    rw [pdRPO]
    exact List.mem_cons_of_mem _
      (List.mem_map.mpr ⟨b, List.mem_reverse.mpr
        ((pdReach0_eq_rpo0 g hwf b).mp hb), rfl⟩)
  have hib : ipdomIdx g b < pdN g := by
    rw [ipdomIdx, indexOf_option]
    exact List.indexOf_lt_length.mpr hmem
  have hgb : (pdRPO g).getD (ipdomIdx g b) none = some b := by
    rw [List.getD_eq_getElem _ _ hib]
    simp only [ipdomIdx, indexOf_option]
    exact List.getElem_indexOf (by rw [← indexOf_option]; exact hib)
  have hib0 : 0 < ipdomIdx g b := by
    rcases Nat.eq_zero_or_pos (ipdomIdx g b) with h | h
    · exfalso
      rw [h, List.getD_eq_getElem _ _ (pdN_pos g)] at hgb
      rw [show (pdRPO g)[0] = none from by simp [pdRPO]] at hgb
      cases hgb
    · exact h
  have hsame : ∀ i, i < pdN g → (pdRPO g).getD i none = some b →
      i = ipdomIdx g b := by
    intro i hi hival
    refine pdEdge_snd_inj g i (ipdomIdx g b) hi hib ?_
    rw [hival, hgb]
  constructor
  · intro hvne0
    ext x
    rw [parentsOf, Finset.mem_image, Finset.mem_singleton]
    constructor
    · rintro ⟨e, hef, rfl⟩
      obtain ⟨he, he2⟩ := Finset.mem_filter.mp hef
      obtain ⟨i, hi, _, _, _, hedge⟩ := (mem_populatePdMap g e).mp he
      obtain ⟨_, hin⟩ := (mem_range_drop_one _ i).mp hi
      have hsnd : (pdRPO g).getD i none = some b := by
        rw [hedge] at he2
        exact he2
      have hieq : i = ipdomIdx g b := hsame i hin hsnd
      rw [hedge]
      simp only
      rw [hieq]
    · rintro rfl
      have hva : 0 ≤ (pdIPdoms g).getD (ipdomIdx g b) (-1) :=
        hall _ hib
      have hvlt : (pdIPdoms g).getD (ipdomIdx g b) (-1) <
          (ipdomIdx g b : Int) := by
        rcases hinv.lt _ hib0 hib with h | h
        · omega
        · exact h.2
      refine ⟨pdEdge g (ipdomIdx g b), ?_, rfl⟩
      refine Finset.mem_filter.mpr ⟨?_, ?_⟩
      · refine (mem_populatePdMap g _).mpr
          ⟨ipdomIdx g b, (mem_range_drop_one _ _).mpr ⟨by omega, hib⟩,
            hvne0, by omega, by omega, rfl⟩
      · exact hgb
  · intro hv0
    rw [Finset.eq_empty_iff_forall_not_mem]
    intro x hx
    rw [parentsOf, Finset.mem_image] at hx
    obtain ⟨e, hef, _⟩ := hx
    obtain ⟨he, he2⟩ := Finset.mem_filter.mp hef
    obtain ⟨i, hi, hvne, _, _, hedge⟩ := (mem_populatePdMap g e).mp he
    obtain ⟨_, hin⟩ := (mem_range_drop_one _ i).mp hi
    have hsnd : (pdRPO g).getD i none = some b := by
      rw [hedge] at he2
      exact he2
    have hieq : i = ipdomIdx g b := hsame i hin hsnd
    rw [hieq] at hvne
    exact hvne hv0

/-- C2 as amended: after `analyze` on a fresh state, the dominator map is
a tree over the reachable blocks — `|reachable| - 1` edges, no cycle, the
entry block the unique root without a parent edge, every other reachable
block with exactly one parent edge.  The post-dominator map likewise has
no cycle and gives every backward reachable block whose computed immediate
post-dominator is a real block exactly one parent edge; blocks whose
immediate post-dominator is the virtual exit have none (their edges are
skipped by the population loop), so the map holds exactly
`|reachable| - k` edges, where `k` counts those blocks. -/
theorem claim_C2_amended_tree_shape (g : CFG) (hwf : g.WF) :
    ((analyze g ⟨∅, ∅⟩).domMap.card + 1 = (domReach g).length ∧
     (∀ x, ¬ Relation.TransGen
        (fun a b => (a, b) ∈ (analyze g ⟨∅, ∅⟩).domMap) x x) ∧
     parentsOf (analyze g ⟨∅, ∅⟩).domMap g.entry = ∅ ∧
     (∀ b ∈ domReach g, b ≠ g.entry →
        (parentsOf (analyze g ⟨∅, ∅⟩).domMap b).card = 1)) ∧
    ((analyze g ⟨∅, ∅⟩).pdMap.card + pdVexitCount g = (pdDFS g).1.length ∧
     (∀ x, ¬ Relation.TransGen
        (fun a b => (a, b) ∈ (analyze g ⟨∅, ∅⟩).pdMap) x x) ∧
     (∀ b ∈ (pdDFS g).1,
        ((pdIPdoms g).getD (ipdomIdx g b) (-1) ≠ 0 →
          (parentsOf (analyze g ⟨∅, ∅⟩).pdMap (some b)).card = 1) ∧
        ((pdIPdoms g).getD (ipdomIdx g b) (-1) = 0 →
          parentsOf (analyze g ⟨∅, ∅⟩).pdMap (some b) = ∅))) := by
  refine ⟨⟨?_, ?_, ?_, ?_⟩, ?_, ?_, ?_⟩
  · exact domMap_card g hwf
  · exact no_cycle_of_rank _ (fun a => (domRPO g).indexOf a)
      (domMap_edge_rank g hwf)
  · exact domMap_entry_no_parent g hwf
  · intro b hb hbe
    rw [show (analyze g ⟨∅, ∅⟩).domMap = populateDomMap g ∅ from rfl,
      domMap_parents g hwf b hb hbe]
    exact Finset.card_singleton _
  · exact pdMap_card g hwf
  · exact no_cycle_of_rank _ (fun s => (pdRPO g).indexOf s)
      (pdMap_edge_rank g hwf)
  · intro b hb
    constructor
    · intro hvne
      rw [show (analyze g ⟨∅, ∅⟩).pdMap = populatePdMap g ∅ from rfl,
        (pdMap_parents g hwf b hb).1 hvne]
      exact Finset.card_singleton _
    · intro hv0
      rw [show (analyze g ⟨∅, ∅⟩).pdMap = populatePdMap g ∅ from rfl]
      exact (pdMap_parents g hwf b hb).2 hv0

/-- Witness for the amended C2 at the diamond CFG. -/
theorem claim_C2_amended_tree_shape_witness :
    (analyze diamond ⟨∅, ∅⟩).domMap.card + 1 = (domReach diamond).length ∧
    parentsOf (analyze diamond ⟨∅, ∅⟩).domMap diamond.entry = ∅ :=
  ⟨(claim_C2_amended_tree_shape diamond diamond_wf).1.1,
   (claim_C2_amended_tree_shape diamond diamond_wf).1.2.2.1⟩
